import Mathlib

/-!
# Transcript segmentation and caption pipeline: a shallow embedding

This file embeds the core of `app/srt_generator.py` and
`app/caption_burner.py` and proves properties of the embedded functions.

Modelling conventions:
* Python `str` is modelled as `List Char` (abbreviated `Str`);
* Python `float` is modelled as `ℚ` (exact arithmetic);
* the grouping loops of `SRTGenerator` are modelled with an explicit fuel
  bound returning `Option`: a run that terminates advances at least one
  word per emitted outer iteration, so fuel `words.length` is enough for
  every terminating run, and `none` models a run that never returns;
* Python `re.split(r'\n\s*\n', ...)` is modelled by splitting into
  physical lines and treating maximal runs of whitespace-only lines as
  block separators, which matches the regex on every input;
* `\d` and `int()` are modelled over ASCII digits.
-/

abbrev Str := List Char

/-- Whitespace test used to model Python `str.strip`, `str.split` and `\s`. -/
def isWs (c : Char) : Bool := c.isWhitespace

/-- `interJoin sep [g1, g2, ...] = g1 ++ sep :: g2 ++ ...`: the model of
`sep.join(...)` for a one-character (or one-line) separator. -/
def interJoin {α : Type} (sep : α) : List (List α) → List α
  | [] => []
  | [g] => g
  | g :: gs => g ++ sep :: interJoin sep gs

/-- Maximal runs of elements on which `p` is false; elements satisfying `p`
separate the runs and are dropped.  Instantiated with `isWs` it models
Python `str.split()`, and with "line is whitespace-only" it models the
block splitting `re.split(r'\n\s*\n', ...)`. -/
def chunksBy {α : Type} (p : α → Bool) : List α → List (List α)
  | [] => []
  | a :: as =>
    if p a then chunksBy p as
    else ((a :: as).takeWhile fun x => !p x) :: chunksBy p (as.dropWhile fun x => !p x)
termination_by l => l.length
decreasing_by
· simp only [List.length_cons]; omega
· simp only [List.length_cons]; exact Nat.lt_succ_of_le (List.dropWhile_sublist _).length_le

/-- Model of Python `s.split('\n')` (keeps empty pieces). -/
def splitLines : Str → List Str
  | [] => [[]]
  | c :: s =>
    if c = '\n' then [] :: splitLines s
    else
      match splitLines s with
      | [] => [[c]]
      | l :: ls => (c :: l) :: ls

/-- Drop trailing whitespace. -/
def dropTrailWs (s : Str) : Str := (s.reverse.dropWhile isWs).reverse

/-- Model of Python `str.strip()`. -/
def pyStrip (s : Str) : Str := dropTrailWs (s.dropWhile isWs)

/-- Decimal digit character. -/
def digitChar : ℕ → Char
  | 0 => '0'
  | 1 => '1'
  | 2 => '2'
  | 3 => '3'
  | 4 => '4'
  | 5 => '5'
  | 6 => '6'
  | 7 => '7'
  | 8 => '8'
  | _ => '9'

/-- Decimal digits of a natural number (the model of `str(n)` for `n ≥ 0`). -/
def natDigits (n : ℕ) : Str :=
  if _ : n < 10 then [digitChar n]
  else natDigits (n / 10) ++ [digitChar (n % 10)]
termination_by n
decreasing_by exact Nat.div_lt_self (by omega) (by omega)

/-- Numeric value of a digit character. -/
def digitVal (c : Char) : ℕ := c.toNat - 48

/-- Decimal value of a digit string, starting from accumulator `acc`. -/
def digitsValFrom (acc : ℕ) (s : Str) : ℕ :=
  s.foldl (fun a c => a * 10 + digitVal c) acc

/-- Decimal value of a digit string. -/
def digitsVal (s : Str) : ℕ := digitsValFrom 0 s

/-- Pad on the left with `c` up to width `w`. -/
def leftPad (w : ℕ) (c : Char) (s : Str) : Str :=
  List.replicate (w - s.length) c ++ s

/-- Model of the Python format spec `f"{n:0w}"`. -/
def padZero (w : ℕ) (n : ℤ) : Str :=
  if n < 0 then '-' :: leftPad (w - 1) '0' (natDigits n.natAbs)
  else leftPad w '0' (natDigits n.toNat)

/-- Model of Python `str(n)` for an `int`. -/
def intStr (n : ℤ) : Str :=
  if n < 0 then '-' :: natDigits n.natAbs else natDigits n.toNat

/-- Value of a non-empty all-digit string, `none` otherwise. -/
def parseDigits (s : Str) : Option ℕ :=
  if s ≠ [] ∧ s.all Char.isDigit then some (digitsVal s) else none

/-- Model of Python `int(s)` for a decimal string literal: strip
whitespace, optional sign, then decimal digits; `none` models the
`ValueError`. -/
def pyParseInt (s : Str) : Option ℤ :=
  match pyStrip s with
  | [] => none
  | c :: rest =>
    if c = '-' then (parseDigits rest).map fun n => -(n : ℤ)
    else if c = '+' then (parseDigits rest).map fun n => (n : ℤ)
    else (parseDigits (c :: rest)).map fun n => (n : ℤ)

/-- Read exactly `k` digit characters, decimal value accumulated into
`acc`; returns the value and the rest of the input. -/
def readFixedNatAux (acc : ℕ) : ℕ → Str → Option (ℕ × Str)
  | 0, s => some (acc, s)
  | _ + 1, [] => none
  | k + 1, c :: s =>
    if c.isDigit then readFixedNatAux (acc * 10 + digitVal c) k s else none

/-- Read exactly `k` digit characters (the model of the regex `\d{k}`). -/
def readFixedNat (k : ℕ) (s : Str) : Option (ℕ × Str) := readFixedNatAux 0 k s

/-- Require character `c` at the head of the input. -/
def expectChar (c : Char) : Str → Option Str
  | [] => none
  | x :: s => if x = c then some s else none

/-- Read one `HH:MM:SS,mmm` stamp as seconds (the model of one half of the
timestamp regex in `CaptionBurner.parse_srt`, src/app/caption_burner.py
lines 70-74); returns the value in seconds and the rest of the input. -/
def readStamp (s : Str) : Option (ℚ × Str) := do
  let (h, s) ← readFixedNat 2 s
  let s ← expectChar ':' s
  let (m, s) ← readFixedNat 2 s
  let s ← expectChar ':' s
  let (sec, s) ← readFixedNat 2 s
  let s ← expectChar ',' s
  let (ms, s) ← readFixedNat 3 s
  some ((h : ℚ) * 3600 + (m : ℚ) * 60 + (sec : ℚ) + (ms : ℚ) / 1000, s)

/-- Model of `re.match(r'(\d{2}):(\d{2}):(\d{2}),(\d{3})\s*-->\s*(\d{2}):
(\d{2}):(\d{2}),(\d{3})', time_line)` together with the arithmetic of
src/app/caption_burner.py lines 72-74.  `re.match` anchors at the start
only, so trailing input is ignored. -/
def parse_time_line (l : Str) : Option (ℚ × ℚ) := do
  let (t1, s) ← readStamp l
  let s := s.dropWhile isWs
  let s ← expectChar '-' s
  let s ← expectChar '-' s
  let s ← expectChar '>' s
  let s := s.dropWhile isWs
  let (t2, _) ← readStamp s
  some (t1, t2)

/-- Python `int(x)` truncation toward zero of a rational. -/
def pytrunc (q : ℚ) : ℤ := if q < 0 then ⌈q⌉ else ⌊q⌋

/-- Python `%` on floats: `a - b * floor(a / b)`. -/
def pymod (a b : ℚ) : ℚ := a - b * ⌊a / b⌋

/-- Model of `SRTGenerator.format_timestamp` (src/app/srt_generator.py
lines 299-304): `f"{h:02}:{m:02}:{s:02},{ms:03}"`. -/
def format_timestamp (q : ℚ) : Str :=
  let h : ℤ := ⌊q / 3600⌋
  let m : ℤ := ⌊pymod q 3600 / 60⌋
  let s : ℤ := pytrunc (pymod q 60)
  let ms : ℤ := pytrunc ((q - (pytrunc q : ℚ)) * 1000)
  padZero 2 h ++ ':' :: padZero 2 m ++ ':' :: padZero 2 s ++ ',' :: padZero 3 ms

/-- Truncation of a time to whole milliseconds: the rounding that one
serialize/parse round trip applies to every cue time. -/
def msFloor (q : ℚ) : ℚ := (⌊q * 1000⌋ : ℚ) / 1000

/-! ## The data model of `srt_generator.py` -/

/-- One word with its timestamps, as produced by `transcribe_audio`
(src/app/srt_generator.py lines 79-92): the dict
`{'word': ..., 'start': ..., 'end': ...}`.  The field `stop` models the
key `'end'` (`end` is reserved in Lean). -/
structure WordToken where
  word : Str
  start : ℚ
  stop : ℚ
deriving DecidableEq

/-- `SubtitleEntry` (src/app/srt_generator.py lines 17-22 and
src/app/caption_burner.py lines 35-41). -/
structure SubtitleEntry where
  index : ℤ
  start_time : ℚ
  end_time : ℚ
  text : Str
deriving DecidableEq

/-- `GroupingStrategy` (src/app/srt_generator.py lines 10-14). -/
inductive GroupingStrategy where
  | fixed_word_count
  | time_based
  | character_count
  | smart_phrase
deriving DecidableEq

/-- The fields of `SRTConfig` (src/app/srt_generator.py lines 25-55) used
by the grouping code.  `words_per_subtitle` is an `int`; it is consumed
only through `range(words_per_subtitle)`, whose length is `max n 0`, so it
is modelled by its `toNat`-image via `ℤ`. -/
structure SRTConfig where
  grouping_strategy : GroupingStrategy
  words_per_subtitle : ℤ
  max_duration_per_subtitle : ℚ
  max_chars_per_subtitle : ℤ
  smart_phrase_min_words_for_minor_punct : ℤ
  smart_phrase_max_words : ℤ
  punctuation_marks : List Str
  end_phrase_extension : ℚ
  min_gap_between_subtitles : ℚ
deriving DecidableEq

/-- `any(word.endswith(p) for p in marks)`. -/
def endsWithAny (marks : List Str) (w : Str) : Bool :=
  marks.any fun p => p.isSuffixOf w

/-- The hardcoded `major_punctuation = ('.', '!', '?')`. -/
def majorPunct : List Str := [['.'], ['!'], ['?']]

/-- The hardcoded `minor_punctuation = (',', ';', ':')`. -/
def minorPunct : List Str := [[','], [';'], [':']]

/-- Model of `SRTGenerator._prevent_overlaps` (src/app/srt_generator.py
lines 94-101).  The Python loop mutates `subtitles[i].end_time` in place;
each iteration reads only `subtitles[i+1].start_time`, which no iteration
ever writes, so the loop equals this one-pass recursion. -/
def prevent_overlaps (gap : ℚ) : List SubtitleEntry → List SubtitleEntry
  | [] => []
  | [s] => [s]
  | s :: next :: rest =>
    (if s.end_time + gap > next.start_time
      then { s with end_time := next.start_time - gap }
      else s) :: prevent_overlaps gap (next :: rest)

/-! ## The grouping strategies

Each strategy's outer `while i < len(words)` loop repeats a *step*: an
inner loop collects a group of words starting at position `i` and decides
how far `i` advances.  The emission of the `SubtitleEntry` (including the
major-punctuation end extension) is literally identical in all four
strategies, so it is factored into `segLoop` below, parameterised by the
strategy's step. -/

/-- The three ways the inner `for j in range(words_per_subtitle)` loop of
`group_words_fixed_count` can end: `punct` is the punctuation `break`
(which sets `i += j + 1`), `rangeDone` is normal exhaustion of the
`range` (the `for`'s `else:` sets `i += len(group_words)`), and `bounds`
is the `if i + j >= len(words): break` (which skips the `else:` and
leaves `i` unchanged). -/
inductive FixedExit where
  | punct
  | rangeDone
  | bounds
deriving DecidableEq

/-- The inner loop of `group_words_fixed_count` (src/app/srt_generator.py
lines 114-124), run on the suffix of `words` starting at `i`: collects the
words of the group and reports how the loop ended. -/
def fixedCollect (marks : List Str) : ℕ → List WordToken → List WordToken × FixedExit
  | 0, _ => ([], .rangeDone)
  | _ + 1, [] => ([], .bounds)
  | n + 1, w :: ws =>
    if endsWithAny marks w.word then ([w], .punct)
    else
      let r := fixedCollect marks n ws
      (w :: r.1, r.2)

/-- The inner `while i + j < len(words)` loop of `group_words_time_based`
(src/app/srt_generator.py lines 154-169); `first` is `j == 0`. -/
def timeCollect (marks : List Str) (maxDur : ℚ) (gstart : ℚ) :
    Bool → List WordToken → List WordToken
  | _, [] => []
  | first, w :: ws =>
    if w.stop - gstart > maxDur ∧ first = false then []
    else if endsWithAny marks w.word then [w]
    else w :: timeCollect marks maxDur gstart false ws

/-- The inner loop of `group_words_character_count`
(src/app/srt_generator.py lines 199-216); `acc` is `group_words` so far
(`acc ≠ []` is `j > 0`). -/
def charCollect (marks : List Str) (maxChars : ℤ) (acc : List Str) :
    List WordToken → List WordToken
  | [] => []
  | w :: ws =>
    if (interJoin ' ' (acc ++ [w.word])).length > maxChars ∧ acc ≠ [] then []
    else if endsWithAny marks w.word then [w]
    else w :: charCollect marks maxChars (acc ++ [w.word]) ws

/-- The inner loop of `group_words_smart_phrase`
(src/app/srt_generator.py lines 248-267); `cnt` is `len(group_words)`
before the current word is appended. -/
def smartCollect (minWords maxWords : ℤ) (cnt : ℤ) :
    List WordToken → List WordToken
  | [] => []
  | w :: ws =>
    if endsWithAny majorPunct w.word then [w]
    else if endsWithAny minorPunct w.word ∧ cnt + 1 ≥ minWords then [w]
    else if cnt + 1 ≥ maxWords then [w]
    else w :: smartCollect minWords maxWords (cnt + 1) ws

/-- One outer-loop step of `group_words_fixed_count`: the collected group
and the advance of `i` (`0` on the `bounds` exit, where the Python code
advances `i` by nothing). -/
def fixedStep (cfg : SRTConfig) (ws : List WordToken) : List WordToken × ℕ :=
  let r := fixedCollect cfg.punctuation_marks cfg.words_per_subtitle.toNat ws
  (r.1, if r.2 = .bounds then 0 else r.1.length)

/-- One outer-loop step of `group_words_time_based`:
`i += len(group_words) if group_words else 1`. -/
def timeStep (cfg : SRTConfig) (ws : List WordToken) : List WordToken × ℕ :=
  match ws with
  | [] => ([], 1)
  | w :: ws' =>
    let c := timeCollect cfg.punctuation_marks cfg.max_duration_per_subtitle
      w.start true (w :: ws')
    (c, if c.isEmpty then 1 else c.length)

/-- One outer-loop step of `group_words_character_count`. -/
def charStep (cfg : SRTConfig) (ws : List WordToken) : List WordToken × ℕ :=
  let c := charCollect cfg.punctuation_marks cfg.max_chars_per_subtitle [] ws
  (c, if c.isEmpty then 1 else c.length)

/-- One outer-loop step of `group_words_smart_phrase`. -/
def smartStep (cfg : SRTConfig) (ws : List WordToken) : List WordToken × ℕ :=
  let c := smartCollect cfg.smart_phrase_min_words_for_minor_punct
    cfg.smart_phrase_max_words 0 ws
  (c, if c.isEmpty then 1 else c.length)

/-- The shared outer loop of the four grouping strategies
(src/app/srt_generator.py lines 109-139 and the three analogous loops):
run `step` on the suffix at the current position, emit a cue when a group
was collected (extending its end by `ext` when its last word ends in
major punctuation), and advance by the step's reported amount.  `fuel`
bounds the number of outer iterations; `none` models a non-terminating
run (a terminating run advances at least one word per iteration, so fuel
`words.length` is exact: the Python loop returns iff the fuelled loop
returns `some`, and then with the same list). -/
def segLoop (step : List WordToken → List WordToken × ℕ) (ext : ℚ) :
    ℕ → ℤ → List WordToken → Option (List SubtitleEntry)
  | _, _, [] => some []
  | 0, _, _ :: _ => none
  | fuel + 1, idx, w :: ws =>
    let r := step (w :: ws)
    let rest := (w :: ws).drop r.2
    if r.1.isEmpty then segLoop step ext fuel idx rest
    else
      let lastW := r.1.getLastD w
      let isEnd := endsWithAny majorPunct lastW.word
      let gend := lastW.stop + (if isEnd then ext else 0)
      let entry : SubtitleEntry :=
        { index := idx, start_time := w.start, end_time := gend,
          text := interJoin ' ' (r.1.map WordToken.word) }
      (segLoop step ext fuel (idx + 1) rest).map fun l => entry :: l

/-- `SRTGenerator.group_words_fixed_count` (src/app/srt_generator.py
lines 103-141). -/
def group_words_fixed_count (cfg : SRTConfig) (words : List WordToken) :
    Option (List SubtitleEntry) :=
  (segLoop (fixedStep cfg) cfg.end_phrase_extension words.length 1 words).map
    (prevent_overlaps cfg.min_gap_between_subtitles)

/-- `SRTGenerator.group_words_time_based` (src/app/srt_generator.py
lines 143-186). -/
def group_words_time_based (cfg : SRTConfig) (words : List WordToken) :
    Option (List SubtitleEntry) :=
  (segLoop (timeStep cfg) cfg.end_phrase_extension words.length 1 words).map
    (prevent_overlaps cfg.min_gap_between_subtitles)

/-- `SRTGenerator.group_words_character_count` (src/app/srt_generator.py
lines 188-233). -/
def group_words_character_count (cfg : SRTConfig) (words : List WordToken) :
    Option (List SubtitleEntry) :=
  (segLoop (charStep cfg) cfg.end_phrase_extension words.length 1 words).map
    (prevent_overlaps cfg.min_gap_between_subtitles)

/-- `SRTGenerator.group_words_smart_phrase` (src/app/srt_generator.py
lines 235-284). -/
def group_words_smart_phrase (cfg : SRTConfig) (words : List WordToken) :
    Option (List SubtitleEntry) :=
  (segLoop (smartStep cfg) cfg.end_phrase_extension words.length 1 words).map
    (prevent_overlaps cfg.min_gap_between_subtitles)

/-- `SRTGenerator.group_words` (src/app/srt_generator.py lines 286-297). -/
def group_words (cfg : SRTConfig) (words : List WordToken) :
    Option (List SubtitleEntry) :=
  if words.isEmpty then some []
  else
    match cfg.grouping_strategy with
    | .fixed_word_count => group_words_fixed_count cfg words
    | .time_based => group_words_time_based cfg words
    | .character_count => group_words_character_count cfg words
    | .smart_phrase => group_words_smart_phrase cfg words

/-- One block `f"{subtitle.index}\n{start} --> {end}\n{subtitle.text}\n"`
of `SRTGenerator.generate_srt_content` (src/app/srt_generator.py
line 314). -/
def entryBlock (e : SubtitleEntry) : Str :=
  intStr e.index ++ '\n' ::
    (format_timestamp e.start_time ++ [' ', '-', '-', '>', ' '] ++
      format_timestamp e.end_time) ++ '\n' :: e.text ++ ['\n']

/-- `SRTGenerator.generate_srt_content` (src/app/srt_generator.py
lines 306-316): `'\n'.join(srt_lines)` (empty input gives `""`). -/
def generate_srt_content (subtitles : List SubtitleEntry) : Str :=
  if subtitles.isEmpty then [] else interJoin '\n' (subtitles.map entryBlock)

/-! ## The model of `caption_burner.py` -/

/-- A line consisting only of whitespace (possibly empty): such lines are
absorbed by the separator `\n\s*\n` of `re.split`. -/
def isBlankLine (l : Str) : Bool := l.all isWs

/-- The block splitting `re.split(r'\n\s*\n', content.strip())`
(src/app/caption_burner.py line 56): maximal runs of non-blank lines,
re-joined with `'\n'`. -/
def blocksOf (content : Str) : List Str :=
  (chunksBy isBlankLine (splitLines (pyStrip content))).map (interJoin '\n')

/-- The per-block body of `CaptionBurner.parse_srt`
(src/app/caption_burner.py lines 59-78): `none` models both the
`continue` on short blocks, the caught `ValueError` of `int(lines[0])`,
and a non-matching timestamp line. -/
def parseBlock (b : Str) : Option SubtitleEntry :=
  match splitLines (pyStrip b) with
  | l0 :: l1 :: l2 :: rest => do
    let idx ← pyParseInt l0
    let (st, en) ← parse_time_line l1
    some { index := idx, start_time := st, end_time := en,
           text := interJoin '\n' (l2 :: rest) }
  | _ => none

/-- `CaptionBurner.parse_srt` (src/app/caption_burner.py lines 50-80),
applied to the file's content. -/
def parse_srt (content : Str) : List SubtitleEntry :=
  (blocksOf content).filterMap parseBlock

/-- Require exactly `k` digit characters, returning the rest. -/
def matchDigits : ℕ → Str → Option Str
  | 0, s => some s
  | _ + 1, [] => none
  | k + 1, c :: s => if c.isDigit then matchDigits k s else none

/-- Modelled from the spec: the timestamp-pattern check of §6, "a
timestamp line not matching the `HH:MM:SS,mmm --> HH:MM:SS,mmm`
pattern" — a Boolean matcher written independently of the value-computing
parser `parse_time_line`. -/
def timePatternB (l : Str) : Bool :=
  (do
    let s ← matchDigits 2 l
    let s ← expectChar ':' s
    let s ← matchDigits 2 s
    let s ← expectChar ':' s
    let s ← matchDigits 2 s
    let s ← expectChar ',' s
    let s ← matchDigits 3 s
    let s := s.dropWhile isWs
    let s ← expectChar '-' s
    let s ← expectChar '-' s
    let s ← expectChar '>' s
    let s := s.dropWhile isWs
    let s ← matchDigits 2 s
    let s ← expectChar ':' s
    let s ← matchDigits 2 s
    let s ← expectChar ':' s
    let s ← matchDigits 2 s
    let s ← expectChar ',' s
    let _ ← matchDigits 3 s
    some ()).isSome

/-- Modelled from the spec: §6's description of a well-formed subtitle
block — at least 3 lines, an integer index line, and a timestamp line
matching the pattern. -/
def wellFormedBlock (b : Str) : Bool :=
  let lines := splitLines (pyStrip b)
  decide (3 ≤ lines.length) && (pyParseInt (lines.headD [])).isSome &&
    timePatternB (lines.getD 1 [])

/-- Model of Python `text.split()`: maximal runs of non-whitespace
characters. -/
def pySplit (s : Str) : List Str := chunksBy isWs s

/-- The word-accumulation loop of `CaptionBurner._wrap_text`
(src/app/caption_burner.py lines 114-127).  `measure` abstracts the
width function `font.getbbox(test)[2] - font.getbbox(test)[0]`;
`cur` is `current_line`. -/
def wrapLoop (measure : Str → ℤ) (maxw : ℤ) (cur : List Str) :
    List Str → List Str
  | [] => if cur.isEmpty then [] else [interJoin ' ' cur]
  | w :: ws =>
    if measure (interJoin ' ' (cur ++ [w])) ≤ maxw then
      wrapLoop measure maxw (cur ++ [w]) ws
    else if cur.isEmpty then wrapLoop measure maxw [w] ws
    else interJoin ' ' cur :: wrapLoop measure maxw [w] ws

/-- `CaptionBurner._wrap_text` (src/app/caption_burner.py lines 108-129):
`return lines if lines else [text]`. -/
def wrap_text (measure : Str → ℤ) (maxw : ℤ) (text : Str) : List Str :=
  let lines := wrapLoop measure maxw [] (pySplit text)
  if lines.isEmpty then [text] else lines

/-- The overlay-anchor computation of `CaptionBurner.burn_captions`
(src/app/caption_burner.py lines 293-300); Python `//` is floor
division. -/
def overlayAnchor (position : Str) (videoW videoH imgW imgH margin : ℤ) :
    ℤ × ℤ :=
  let x := (videoW - imgW).fdiv 2
  let y :=
    if position = "top".toList then margin
    else if position = "middle".toList then (videoH - imgH).fdiv 2
    else videoH - imgH - margin
  (x, y)

/-! ## Named predicates used in the claim statements -/

/-- Adjacent cues never overlap: `cue[i].end + gap ≤ cue[i+1].start`. -/
abbrev NonOverlap (gap : ℚ) (subs : List SubtitleEntry) : Prop :=
  List.Chain' (fun a b => a.end_time + gap ≤ b.start_time) subs

/-- Every cue has a positive duration. -/
abbrev AllStartLtEnd (subs : List SubtitleEntry) : Prop :=
  ∀ c ∈ subs, c.start_time < c.end_time

/-- Every token satisfies `start ≤ end`. -/
abbrev TokensLe (ws : List WordToken) : Prop :=
  ∀ w ∈ ws, w.start ≤ w.stop

/-- Every token satisfies `start < end`. -/
abbrev TokensLt (ws : List WordToken) : Prop :=
  ∀ w ∈ ws, w.start < w.stop

/-- Consecutive tokens are separated by at least `gap`. -/
abbrev TokensSep (gap : ℚ) (ws : List WordToken) : Prop :=
  List.Chain' (fun a b => a.stop + gap ≤ b.start) ws

/-- Strictly increasing starts of adjacent cues, by more than `gap`: the
intermediate invariant that survives `prevent_overlaps`. -/
abbrev StartsSep (gap : ℚ) (subs : List SubtitleEntry) : Prop :=
  List.Chain' (fun a b => a.start_time + gap < b.start_time) subs

/-- Words all non-empty and whitespace-free (what `str.split()` returns). -/
def GoodWords (us : List Str) : Prop :=
  ∀ u ∈ us, u ≠ [] ∧ ∀ x ∈ u, isWs x = false

/-- Every prefix of at least two words of a line measures within `maxw`:
the invariant `_wrap_text` maintains for `current_line` (the first word
of a line is never measured alone when the line was opened by an
overflow). -/
def PrefixFits (measure : Str → ℤ) (maxw : ℤ) (us : List Str) : Prop :=
  ∀ j, 2 ≤ j → j ≤ us.length → measure (interJoin ' ' (us.take j)) ≤ maxw

/-- What the four strategy steps have in common: the collected group is a
prefix of the suffix being scanned, and the advance is either `0` (the
`bounds` exit of the fixed-count strategy) or exactly the group size. -/
def GoodStep (step : List WordToken → List WordToken × ℕ) : Prop :=
  ∀ w ws, ((step (w :: ws)).1 <+: w :: ws) ∧
    ((step (w :: ws)).2 = 0 ∨
      ((step (w :: ws)).1 ≠ [] ∧ (step (w :: ws)).2 = (step (w :: ws)).1.length))

/-- Rounding of a cue's two times to whole milliseconds. -/
def msTrunc (e : SubtitleEntry) : SubtitleEntry :=
  { e with start_time := msFloor e.start_time, end_time := msFloor e.end_time }

/-- The cue-list invariants as the data model states them: indices are
`k, k+1, ...`; `0 ≤ start < end`; text non-empty and single-line. -/
def cueInvariantsFrom (k : ℤ) : List SubtitleEntry → Bool
  | [] => true
  | c :: rest =>
    decide (c.index = k) && decide (0 ≤ c.start_time) &&
      decide (c.start_time < c.end_time) && decide (c.text ≠ []) &&
      decide ('\n' ∉ c.text) && cueInvariantsFrom (k + 1) rest

/-- The claimed data-model invariants of a cue list (indices `1..N`). -/
def claimedInvariants (subs : List SubtitleEntry) : Bool :=
  cueInvariantsFrom 1 subs

/-- The extra conditions an SRT round trip actually needs: every time is
below 100 hours (the `HH` field has exactly two digits) and no text ends
in whitespace (`content.strip()` / `block.strip()` would eat it). -/
def roundTripSafe (subs : List SubtitleEntry) : Bool :=
  subs.all fun c =>
    decide (c.start_time < 360000) && decide (c.end_time < 360000) &&
      decide (isWs (c.text.getLastD 'x') = false)

/-- Width measure used in concrete wrap examples: the character count. -/
def lenMeasure (s : Str) : ℤ := s.length

/-! ## Concrete inputs used by witnesses and counterexamples -/

/-- A configuration with the default punctuation, extension and gap
(src/app/srt_generator.py lines 44-48), fixed-count strategy with two
words per subtitle. -/
def cfgA : SRTConfig :=
  { grouping_strategy := .fixed_word_count
    words_per_subtitle := 2
    max_duration_per_subtitle := 2
    max_chars_per_subtitle := 42
    smart_phrase_min_words_for_minor_punct := 3
    smart_phrase_max_words := 5
    punctuation_marks := [['.'], ['!'], ['?'], [','], [';'], [':']]
    end_phrase_extension := 3 / 10
    min_gap_between_subtitles := 1 / 10 }

/-- The two words of spec Scenario A. -/
def wordsA : List WordToken :=
  [⟨"Hello".toList, 0, 2 / 5⟩, ⟨"world.".toList, 2 / 5, 9 / 10⟩]

/-- The cue Scenario A produces (with the 0.3 s major-punctuation
extension). -/
def subsA : List SubtitleEntry :=
  [⟨1, 0, 6 / 5, "Hello world.".toList⟩]

/-- `cfgA` with one word per subtitle. -/
def cfgB : SRTConfig := { cfgA with words_per_subtitle := 1 }

/-- Two tokens, each with `start < end`, adjacent without a gap. -/
def wordsB : List WordToken :=
  [⟨"a".toList, 9 / 10, 1⟩, ⟨"b".toList, 1, 2⟩]

/-- What `group_words cfgB wordsB` returns: the clamp makes the first
cue's end equal to its start. -/
def subsB : List SubtitleEntry :=
  [⟨1, 9 / 10, 9 / 10, "a".toList⟩, ⟨2, 1, 2, "b".toList⟩]

/-- Tokens separated by more than the minimum gap. -/
def wordsW : List WordToken :=
  [⟨"a".toList, 0, 1 / 2⟩, ⟨"b".toList, 1, 2⟩]

/-- `group_words cfgB wordsW`. -/
def subsW : List SubtitleEntry :=
  [⟨1, 0, 1 / 2, "a".toList⟩, ⟨2, 1, 2, "b".toList⟩]

/-- The two cues of spec Scenario B: end times `[2.0, 2.05]`, start times
`[2.0, 2.4]`. -/
def cuesC4 : List SubtitleEntry :=
  [⟨1, 2, 2, "a".toList⟩, ⟨2, 12 / 5, 41 / 20, "b".toList⟩]

/-- `cfgA` with the default `words_per_subtitle = 3`. -/
def cfgC5 : SRTConfig := { cfgA with words_per_subtitle := 3 }

/-- A single word with no trailing punctuation. -/
def wordsC5 : List WordToken := [⟨"Hello".toList, 0, 1 / 2⟩]

/-- A valid cue list whose round trip is exact (times are whole
milliseconds). -/
def cuesGood : List SubtitleEntry :=
  [⟨1, 0, 3 / 2, "Hello world".toList⟩, ⟨2, 2, 61, "again".toList⟩]

/-- A cue list satisfying the claimed data-model invariants on which the
round trip loses data: the first text ends in a space (eaten by
`strip()`), the second cue starts at 100 hours (the formatted `HH` field
has three digits, which the parse regex rejects). -/
def cuesBad : List SubtitleEntry :=
  [⟨1, 0, 1, "a ".toList⟩, ⟨2, 360000, 360001, "b".toList⟩]

/-- An SRT file whose middle block has only 2 lines (spec Scenario C). -/
def contentC9 : Str :=
  "1\n00:00:00,000 --> 00:00:01,000\nHello\n\n2\n00:00:02,000\n\n3\n00:00:03,000 --> 00:00:04,000\nBye".toList

/-- The entries of the two well-formed blocks of `contentC9`. -/
def parsedC9 : List SubtitleEntry :=
  [⟨1, 0, 1, "Hello".toList⟩, ⟨3, 3, 4, "Bye".toList⟩]

/-- Text for the wrap-idempotence witness. -/
def textC6 : Str := "aa bb cc".toList

/-- The first line `_wrap_text` produces from `textC6` at width 5. -/
def lineC6 : Str := "aa bb".toList

/-- A single 50-character word. -/
def aFifty : Str := List.replicate 50 'a'

/-- The three lines of one serialized cue block (its text before the
block-final newline). -/
def cueLines (e : SubtitleEntry) : List Str :=
  [intStr e.index,
    format_timestamp e.start_time ++ [' ', '-', '-', '>', ' '] ++
      format_timestamp e.end_time,
    e.text]

/-! ## Overlap prevention -/

theorem prevent_overlaps_head_start (gap : ℚ) (x : SubtitleEntry)
    (l : List SubtitleEntry) :
    ∃ z zs, prevent_overlaps gap (x :: l) = z :: zs ∧
      z.start_time = x.start_time := by
  cases l with
  | nil => exact ⟨x, [], rfl, rfl⟩
  | cons y t =>
    simp only [prevent_overlaps]
    split <;> exact ⟨_, _, rfl, rfl⟩

theorem prevent_overlaps_chain (gap : ℚ) :
    ∀ subs, NonOverlap gap (prevent_overlaps gap subs)
  | [] => List.chain'_nil
  | [s] => by simp [prevent_overlaps]
  | s :: next :: rest => by
    obtain ⟨z, zs, hz, hstart⟩ := prevent_overlaps_head_start gap next rest
    have htail := prevent_overlaps_chain gap (next :: rest)
    simp only [prevent_overlaps]
    rw [hz] at htail ⊢
    refine List.Chain'.cons ?_ htail
    rw [hstart]
    split
    · simp
    · next h => linarith [not_lt.mp h]

/-- C1: for every word-token list and every grouping strategy (each of
`group_words_fixed_count`, `group_words_time_based`,
`group_words_character_count`, `group_words_smart_phrase`, all of which
finish with the `_prevent_overlaps` pass), whenever the run returns a cue
list, every adjacent pair of cues satisfies
`cue[i].end_time + min_gap_between_subtitles ≤ cue[i+1].start_time`. -/
theorem C1_nonoverlap (cfg : SRTConfig) (words : List WordToken)
    (subs : List SubtitleEntry) (h : group_words cfg words = some subs) :
    NonOverlap cfg.min_gap_between_subtitles subs := by
  unfold group_words at h
  split at h
  · cases h
    exact List.chain'_nil
  · split at h <;>
      [ unfold group_words_fixed_count at h;
        unfold group_words_time_based at h;
        unfold group_words_character_count at h;
        unfold group_words_smart_phrase at h ] <;>
      · obtain ⟨s0, -, hmap⟩ := Option.map_eq_some'.mp h
        rw [← hmap]
        exact prevent_overlaps_chain _ s0

/-- Witness for C1 at Scenario A's input. -/
theorem C1_nonoverlap_witness :
    group_words cfgA wordsA = some subsA ∧
      NonOverlap cfgA.min_gap_between_subtitles subsA :=
  ⟨by with_unfolding_all decide,
    C1_nonoverlap cfgA wordsA subsA (by with_unfolding_all decide)⟩

/-- C4, counterexample: on Scenario B's concrete cues (ends `[2.0, 2.05]`,
starts `[2.0, 2.4]`, `min_gap = 0.1`) the overlap-prevention pass leaves
both cues unchanged — `2.0 + 0.1 ≤ 2.4`, so no clamping occurs and the
first cue's end time is `2.0`, not the claimed `2.3`. -/
theorem C4_counterexample :
    prevent_overlaps (1 / 10) cuesC4 = cuesC4 ∧
      ((prevent_overlaps (1 / 10) cuesC4).map SubtitleEntry.end_time).headD 0 = 2 ∧
      (2 : ℚ) ≠ 23 / 10 := by
  with_unfolding_all decide

/-- C4 (amended): for the concrete input of two cues with end times
`[2.0, 2.05]` and start times `[2.0, 2.4]`, running the overlap-prevention
pass with `min_gap_between_subtitles = 0.1` leaves the cue list unchanged
(in particular the first cue's end time remains `2.0`), since
`2.0 + 0.1 ≤ 2.4` means the clamp condition never fires. -/
theorem C4_amended :
    prevent_overlaps (1 / 10) cuesC4 = cuesC4 ∧
      (cuesC4.map SubtitleEntry.end_time).headD 0 = 2 := by
  with_unfolding_all decide

/-- C8: with `position = "bottom"` the compositor anchors the caption
image at `x = (frame_width − image_width) // 2` and
`y = frame_height − image_height − margin`; in particular margin 50,
frame 1280×720 and image 400×100 give the anchor `(440, 570)`. -/
theorem C8_bottom_anchor :
    (∀ videoW videoH imgW imgH margin : ℤ,
      overlayAnchor ("bottom".toList) videoW videoH imgW imgH margin =
        ((videoW - imgW).fdiv 2, videoH - imgH - margin)) ∧
    overlayAnchor ("bottom".toList) 1280 720 400 100 50 = (440, 570) := by
  constructor
  · intro videoW videoH imgW imgH margin
    unfold overlayAnchor
    rw [if_neg (by decide), if_neg (by decide)]
  · decide

/-- Reduction of the first `_wrap_text` loop step: with an empty
`current_line`, the first word is installed as the current line whether or
not it fits, and no line is emitted. -/
theorem wrapLoop_nil_cons (measure : Str → ℤ) (maxw : ℤ) (u : Str)
    (us : List Str) :
    wrapLoop measure maxw [] (u :: us) = wrapLoop measure maxw [u] us := by
  simp only [wrapLoop, List.nil_append, List.isEmpty_nil, if_true]
  split <;> rfl

/-- C7: a text that splits into a single word whose measured width
exceeds `max_width` is returned as exactly one line holding that word
unmodified. -/
theorem C7_oversized_word (measure : Str → ℤ) (maxw : ℤ) (text w : Str)
    (hsplit : pySplit text = [w]) (hwide : maxw < measure w) :
    wrap_text measure maxw text = [w] := by
  unfold wrap_text
  rw [hsplit, wrapLoop_nil_cons]
  simp [wrapLoop, interJoin]

/-- Witness for C7: fifty `a`s at width 10 under the character-count
measure. -/
theorem C7_oversized_word_witness :
    pySplit aFifty = [aFifty] ∧ (10 : ℤ) < lenMeasure aFifty ∧
      wrap_text lenMeasure 10 aFifty = [aFifty] :=
  ⟨by with_unfolding_all decide, by with_unfolding_all decide,
    C7_oversized_word lenMeasure 10 aFifty aFifty
      (by with_unfolding_all decide) (by with_unfolding_all decide)⟩

/-- If a step consumes nothing on a non-empty suffix, the outer loop never
terminates: every fuel bound is exhausted (the model of the Python loop
running forever). -/
theorem segLoop_none_of_no_advance (step : List WordToken → List WordToken × ℕ)
    (ext : ℚ) (ws : List WordToken) (hne : ws ≠ []) (h0 : (step ws).2 = 0) :
    ∀ fuel idx, segLoop step ext fuel idx ws = none := by
  intro fuel
  induction fuel with
  | zero =>
    intro idx
    cases ws with
    | nil => exact absurd rfl hne
    | cons w t => rfl
  | succ n ih =>
    intro idx
    cases ws with
    | nil => exact absurd rfl hne
    | cons w t =>
      simp only [segLoop, h0, List.drop_zero]
      split
      · exact ih idx
      · rw [ih (idx + 1)]
        rfl

/-- C5: the fixed-count grouping loop does not terminate on the failing
input `wordsC5` (one word, no trailing punctuation) with the default
`words_per_subtitle = 3`: the `if i + j >= len(words): break` exit of the
inner `for` skips the `for`'s `else:` clause, so `i` is never advanced
and the outer `while` loops forever.  Every fuel bound returns `none`,
and `group_words` (fuel `words.length`) returns `none`. -/
theorem C5_fixed_count_diverges :
    (∀ fuel idx,
      segLoop (fixedStep cfgC5) cfgC5.end_phrase_extension fuel idx wordsC5 =
        none) ∧
    group_words cfgC5 wordsC5 = none :=
  ⟨fun fuel idx =>
    segLoop_none_of_no_advance (fixedStep cfgC5) cfgC5.end_phrase_extension
      wordsC5 (by decide) (by with_unfolding_all decide) fuel idx,
    by with_unfolding_all decide⟩

/-! ## Structure of the strategy steps -/

theorem fixedCollect_takes_front (marks : List Str) :
    ∀ n ws, (fixedCollect marks n ws).1 <+: ws := by
  intro n
  induction n with
  | zero => intro ws; exact List.nil_prefix
  | succ n ih =>
    intro ws
    cases ws with
    | nil => exact List.nil_prefix
    | cons w t =>
      simp only [fixedCollect]
      split
      · exact ⟨t, rfl⟩
      · obtain ⟨s, hs⟩ := ih t
        exact ⟨s, by rw [List.cons_append, hs]⟩

theorem timeCollect_takes_front (marks : List Str) (d g : ℚ) :
    ∀ ws first, timeCollect marks d g first ws <+: ws := by
  intro ws
  induction ws with
  | nil => intro first; exact List.nil_prefix
  | cons w t ih =>
    intro first
    simp only [timeCollect]
    split
    · exact List.nil_prefix
    · split
      · exact ⟨t, rfl⟩
      · obtain ⟨s, hs⟩ := ih false
        exact ⟨s, by rw [List.cons_append, hs]⟩

theorem charCollect_takes_front (marks : List Str) (mc : ℤ) :
    ∀ ws acc, charCollect marks mc acc ws <+: ws := by
  intro ws
  induction ws with
  | nil => intro acc; exact List.nil_prefix
  | cons w t ih =>
    intro acc
    simp only [charCollect]
    split
    · exact List.nil_prefix
    · split
      · exact ⟨t, rfl⟩
      · obtain ⟨s, hs⟩ := ih (acc ++ [w.word])
        exact ⟨s, by rw [List.cons_append, hs]⟩

theorem smartCollect_takes_front (mn mx : ℤ) :
    ∀ ws cnt, smartCollect mn mx cnt ws <+: ws := by
  intro ws
  induction ws with
  | nil => intro cnt; exact List.nil_prefix
  | cons w t ih =>
    intro cnt
    simp only [smartCollect]
    split
    · exact ⟨t, rfl⟩
    · split
      · exact ⟨t, rfl⟩
      · split
        · exact ⟨t, rfl⟩
        · obtain ⟨s, hs⟩ := ih (cnt + 1)
          exact ⟨s, by rw [List.cons_append, hs]⟩

theorem timeCollect_ne_nil (marks : List Str) (d g : ℚ) (w : WordToken)
    (ws : List WordToken) : timeCollect marks d g true (w :: ws) ≠ [] := by
  simp only [timeCollect]
  rw [if_neg (by simp)]
  split <;> simp

theorem charCollect_ne_nil (marks : List Str) (mc : ℤ) (w : WordToken)
    (ws : List WordToken) : charCollect marks mc [] (w :: ws) ≠ [] := by
  simp only [charCollect]
  rw [if_neg (by simp)]
  split <;> simp

theorem smartCollect_ne_nil (mn mx cnt : ℤ) (w : WordToken)
    (ws : List WordToken) : smartCollect mn mx cnt (w :: ws) ≠ [] := by
  simp only [smartCollect]
  split
  · simp
  · split
    · simp
    · split <;> simp

theorem goodStep_fixed (cfg : SRTConfig) : GoodStep (fixedStep cfg) := by
  intro w ws
  refine ⟨fixedCollect_takes_front _ _ _, ?_⟩
  simp only [fixedStep]
  by_cases hb :
      (fixedCollect cfg.punctuation_marks cfg.words_per_subtitle.toNat
        (w :: ws)).2 = .bounds
  · left
    simp [hb]
  · by_cases hc :
        (fixedCollect cfg.punctuation_marks cfg.words_per_subtitle.toNat
          (w :: ws)).1 = []
    · left
      simp [hb, hc]
    · right
      exact ⟨hc, by simp [hb]⟩

theorem goodStep_time (cfg : SRTConfig) : GoodStep (timeStep cfg) := by
  intro w ws
  have hne := timeCollect_ne_nil cfg.punctuation_marks
    cfg.max_duration_per_subtitle w.start w ws
  simp only [timeStep]
  refine ⟨timeCollect_takes_front _ _ _ _ _, Or.inr ⟨hne, ?_⟩⟩
  rw [if_neg]
  simp [List.isEmpty_iff, hne]

theorem goodStep_char (cfg : SRTConfig) : GoodStep (charStep cfg) := by
  intro w ws
  have hne := charCollect_ne_nil cfg.punctuation_marks
    cfg.max_chars_per_subtitle w ws
  simp only [charStep]
  refine ⟨charCollect_takes_front _ _ _ _, Or.inr ⟨hne, ?_⟩⟩
  rw [if_neg]
  simp [List.isEmpty_iff, hne]

theorem goodStep_smart (cfg : SRTConfig) : GoodStep (smartStep cfg) := by
  intro w ws
  have hne := smartCollect_ne_nil cfg.smart_phrase_min_words_for_minor_punct
    cfg.smart_phrase_max_words 0 w ws
  simp only [smartStep]
  refine ⟨smartCollect_takes_front _ _ _ _, Or.inr ⟨hne, ?_⟩⟩
  rw [if_neg]
  simp [List.isEmpty_iff, hne]

theorem getLastD_mem {α : Type} :
    ∀ (l : List α) (d : α), l ≠ [] → l.getLastD d ∈ l := by
  intro l
  induction l with
  | nil => intro d h; exact absurd rfl h
  | cons a t ih =>
    intro d _
    cases t with
    | nil => simp [List.getLastD]
    | cons b t' =>
      rw [List.getLastD_cons]
      exact List.mem_cons_of_mem a (ih a (by simp))

theorem getLast?_eq_some_getLastD {α : Type} :
    ∀ (l : List α) (a d : α), (a :: l).getLast? = some ((a :: l).getLastD d) := by
  intro l
  induction l with
  | nil => intro a d; rfl
  | cons b t ih =>
    intro a d
    rw [List.getLast?_cons_cons, ih b b]
    simp only [List.getLastD_cons]

theorem chain_start_le_getLastD (gap : ℚ) (hg : 0 ≤ gap) :
    ∀ (t : List WordToken) (w : WordToken),
      TokensSep gap (w :: t) → TokensLt (w :: t) →
      w.start ≤ ((w :: t).getLastD w).start := by
  intro t
  induction t with
  | nil => intro w _ _; simp [List.getLastD]
  | cons y t' ih =>
    intro w hsep hlt
    have hsy : w.stop + gap ≤ y.start := (List.chain'_cons.mp hsep).1
    have hwy : w.start ≤ y.start := by
      have := hlt w (by simp)
      linarith
    have htl := ih y (List.chain'_cons.mp hsep).2
      (fun x hx => hlt x (List.mem_cons_of_mem w hx))
    simp only [List.getLastD_cons] at htl ⊢
    exact le_trans hwy htl

theorem segLoop_invariant (step : List WordToken → List WordToken × ℕ)
    (hstep : GoodStep step) (gap ext : ℚ) (hg : 0 ≤ gap) (he : 0 ≤ ext) :
    ∀ fuel idx ws subs, TokensSep gap ws → TokensLt ws →
      segLoop step ext fuel idx ws = some subs →
      AllStartLtEnd subs ∧ StartsSep gap subs ∧
      (∀ w c, ws.head? = some w → subs.head? = some c →
        c.start_time = w.start) ∧
      (ws ≠ [] → subs ≠ []) := by
  intro fuel
  induction fuel with
  | zero =>
    intro idx ws subs hsep hlt h
    cases ws with
    | nil =>
      simp only [segLoop, Option.some.injEq] at h
      subst h
      exact ⟨fun c hc => absurd hc (List.not_mem_nil c), List.chain'_nil,
        fun w c hw _ => Option.noConfusion hw, fun hne => absurd rfl hne⟩
    | cons w t => exact absurd h (by simp [segLoop])
  | succ n ih =>
    intro idx ws subs hsep hlt h
    cases ws with
    | nil =>
      simp only [segLoop, Option.some.injEq] at h
      subst h
      exact ⟨fun c hc => absurd hc (List.not_mem_nil c), List.chain'_nil,
        fun w c hw _ => Option.noConfusion hw, fun hne => absurd rfl hne⟩
    | cons w t =>
      rcases (hstep w t).2 with hz | ⟨hc, hlen⟩
      · rw [segLoop_none_of_no_advance step ext (w :: t) (by simp) hz] at h
        exact absurd h (by simp)
      · obtain ⟨restL, hws⟩ := (hstep w t).1
        simp only [segLoop] at h
        rw [if_neg (by simp [List.isEmpty_iff, hc]), hlen] at h
        set cl := (step (w :: t)).1 with hcl
        have hdrop : (w :: t).drop cl.length = restL := by
          rw [← hws, List.drop_left]
        rw [hdrop] at h
        obtain ⟨tail, htail, hsubs⟩ := Option.map_eq_some'.mp h
        have happ : TokensSep gap (cl ++ restL) := by
          rw [hws]; exact hsep
        obtain ⟨hchainC, hchainR, hbound⟩ := List.chain'_append.mp happ
        have hlt2 : TokensLt restL := fun x hx =>
          hlt x (by rw [← hws]; exact List.mem_append_right _ hx)
        have hltC : TokensLt cl := fun x hx =>
          hlt x (by rw [← hws]; exact List.mem_append_left _ hx)
        obtain ⟨IH1, IH2, IH3, IH4⟩ := ih (idx + 1) restL tail hchainR hlt2 htail
        obtain ⟨c0, cs, hc0⟩ : ∃ c0 cs, cl = c0 :: cs := by
          cases hx : cl with
          | nil => exact absurd hx hc
          | cons a b => exact ⟨a, b, rfl⟩
        have hc0w : c0 = w := by
          rw [hc0, List.cons_append] at hws
          exact (List.cons.injEq _ _ _ _ ▸ hws).1
        subst hc0w
        have hlastmem : cl.getLastD c0 ∈ cl := by
          rw [hc0]
          exact getLastD_mem _ _ (by simp)
        have hlastlt : (cl.getLastD c0).start < (cl.getLastD c0).stop :=
          hltC _ hlastmem
        have hwlast : c0.start ≤ (cl.getLastD c0).start := by
          rw [hc0]
          rw [hc0] at hchainC hltC
          exact chain_start_le_getLastD gap hg cs c0 hchainC hltC
        have hite : (0 : ℚ) ≤
            (if endsWithAny majorPunct (cl.getLastD c0).word then ext
              else 0) := by
          split
          · exact he
          · exact le_refl 0
        refine ⟨?_, ?_, ?_, ?_⟩
        · intro c hcmem
          rw [← hsubs] at hcmem
          rcases List.mem_cons.mp hcmem with hce | hct
          · subst hce
            simp only
            linarith
          · exact IH1 c hct
        · rw [← hsubs]
          refine List.chain'_cons'.mpr ⟨?_, IH2⟩
          intro b hb
          have htailne : restL ≠ [] := by
            intro hrnil
            rw [hrnil] at htail
            simp only [segLoop, Option.some.injEq] at htail
            rw [← htail] at hb
            cases hb
          obtain ⟨y, t2, hrl⟩ : ∃ y t2, restL = y :: t2 := by
            cases hx : restL with
            | nil => exact absurd hx htailne
            | cons a b' => exact ⟨a, b', rfl⟩
          have hbstart : b.start_time = y.start := IH3 y b (by rw [hrl]; rfl) hb
          have hsepLast : (cl.getLastD c0).stop + gap ≤ y.start := by
            refine hbound _ ?_ y ?_
            · rw [hc0]
              exact getLast?_eq_some_getLastD cs c0 c0
            · rw [hrl]
              rfl
          simp only
          rw [hbstart]
          linarith
        · intro w' c' hw' hc'
          rw [← hsubs] at hc'
          cases hw'
          cases hc'
          rfl
        · intro _
          rw [← hsubs]
          simp

theorem prevent_overlaps_start_lt_end (gap : ℚ) :
    ∀ subs, AllStartLtEnd subs → StartsSep gap subs →
      AllStartLtEnd (prevent_overlaps gap subs)
  | [] => fun _ _ => fun c hc => absurd hc (List.not_mem_nil c)
  | [s] => by
    intro hA _ c hc
    simp only [prevent_overlaps] at hc
    exact hA c hc
  | s :: next :: rest => by
    intro hA hB c hc
    simp only [prevent_overlaps] at hc
    rcases List.mem_cons.mp hc with hce | hct
    · subst hce
      split
      · simp only
        have := (List.chain'_cons.mp hB).1
        linarith
      · exact hA s (by simp)
    · have hA' : AllStartLtEnd (next :: rest) := fun x hx =>
        hA x (List.mem_cons_of_mem s hx)
      have hB' : StartsSep gap (next :: rest) := (List.chain'_cons.mp hB).2
      exact prevent_overlaps_start_lt_end gap (next :: rest) hA' hB' c hct

/-- C2, counterexample: two tokens each with `start ≤ end` (indeed
`start < end`) under the fixed-count strategy with one word per subtitle
and `min_gap = 0.1`: the overlap-prevention pass clamps the first cue's
end down to its own start time, so `start_time < end_time` fails. -/
theorem C2_counterexample :
    TokensLe wordsB ∧ group_words cfgB wordsB = some subsB ∧
      ¬ AllStartLtEnd subsB := by
  refine ⟨?_, by with_unfolding_all decide, ?_⟩
  · intro w hw
    fin_cases hw <;> with_unfolding_all decide
  · intro hall
    have := hall ⟨1, 9 / 10, 9 / 10, "a".toList⟩ (by simp [subsB])
    simp only at this
    exact absurd this (by with_unfolding_all decide)

/-- C2 (amended): for every word-token list whose tokens each satisfy
`start < end` and whose consecutive tokens are separated by at least
`min_gap_between_subtitles`, and every grouping strategy with
`min_gap_between_subtitles ≥ 0` and `end_phrase_extension ≥ 0`, every cue
in a list returned by the Segmenter (after the overlap-prevention pass)
satisfies `start_time < end_time`.  (The claim's weaker hypothesis
`start ≤ end` with no separation fails on the code: see the
counterexample, where clamping pulls an end time down to the start.) -/
theorem C2_amended (cfg : SRTConfig) (words : List WordToken)
    (subs : List SubtitleEntry)
    (hg : 0 ≤ cfg.min_gap_between_subtitles)
    (he : 0 ≤ cfg.end_phrase_extension)
    (hsep : TokensSep cfg.min_gap_between_subtitles words)
    (hlt : TokensLt words)
    (h : group_words cfg words = some subs) :
    AllStartLtEnd subs := by
  unfold group_words at h
  split at h
  · cases h
    exact fun c hc => absurd hc (List.not_mem_nil c)
  · split at h
    · unfold group_words_fixed_count at h
      obtain ⟨s0, hs0, hmap⟩ := Option.map_eq_some'.mp h
      rw [← hmap]
      have inv := segLoop_invariant (fixedStep cfg) (goodStep_fixed cfg)
        cfg.min_gap_between_subtitles cfg.end_phrase_extension hg he
        words.length 1 words s0 hsep hlt hs0
      exact prevent_overlaps_start_lt_end _ s0 inv.1 inv.2.1
    · unfold group_words_time_based at h
      obtain ⟨s0, hs0, hmap⟩ := Option.map_eq_some'.mp h
      rw [← hmap]
      have inv := segLoop_invariant (timeStep cfg) (goodStep_time cfg)
        cfg.min_gap_between_subtitles cfg.end_phrase_extension hg he
        words.length 1 words s0 hsep hlt hs0
      exact prevent_overlaps_start_lt_end _ s0 inv.1 inv.2.1
    · unfold group_words_character_count at h
      obtain ⟨s0, hs0, hmap⟩ := Option.map_eq_some'.mp h
      rw [← hmap]
      have inv := segLoop_invariant (charStep cfg) (goodStep_char cfg)
        cfg.min_gap_between_subtitles cfg.end_phrase_extension hg he
        words.length 1 words s0 hsep hlt hs0
      exact prevent_overlaps_start_lt_end _ s0 inv.1 inv.2.1
    · unfold group_words_smart_phrase at h
      obtain ⟨s0, hs0, hmap⟩ := Option.map_eq_some'.mp h
      rw [← hmap]
      have inv := segLoop_invariant (smartStep cfg) (goodStep_smart cfg)
        cfg.min_gap_between_subtitles cfg.end_phrase_extension hg he
        words.length 1 words s0 hsep hlt hs0
      exact prevent_overlaps_start_lt_end _ s0 inv.1 inv.2.1

/-- Witness for the amended C2 on separated tokens. -/
theorem C2_amended_witness :
    (0 ≤ cfgB.min_gap_between_subtitles ∧
      0 ≤ cfgB.end_phrase_extension ∧
      TokensSep cfgB.min_gap_between_subtitles wordsW ∧ TokensLt wordsW ∧
      group_words cfgB wordsW = some subsW) ∧
    AllStartLtEnd subsW := by
  have h1 : (0 : ℚ) ≤ cfgB.min_gap_between_subtitles := by
    with_unfolding_all decide
  have h2 : (0 : ℚ) ≤ cfgB.end_phrase_extension := by
    with_unfolding_all decide
  have h3 : TokensSep cfgB.min_gap_between_subtitles wordsW := by
    refine List.chain'_cons.mpr ⟨?_, List.chain'_singleton _⟩
    with_unfolding_all decide
  have h4 : TokensLt wordsW := by
    intro w hw
    fin_cases hw <;> with_unfolding_all decide
  have h5 : group_words cfgB wordsW = some subsW := by
    with_unfolding_all decide
  exact ⟨⟨h1, h2, h3, h4, h5⟩, C2_amended cfgB wordsW subsW h1 h2 h3 h4 h5⟩

/-! ## Chunks, joins and splits -/

theorem takeWhile_append_of_all {α : Type} (q : α → Bool) (b : α)
    (hb : q b = false) :
    ∀ (g rest : List α), (∀ x ∈ g, q x = true) →
      (g ++ b :: rest).takeWhile q = g := by
  intro g
  induction g with
  | nil =>
    intro rest _
    simp [List.takeWhile_cons, hb]
  | cons a g' ih =>
    intro rest hall
    rw [List.cons_append, List.takeWhile_cons, if_pos (hall a (by simp)),
      ih rest fun x hx => hall x (List.mem_cons_of_mem a hx)]

theorem dropWhile_append_of_all {α : Type} (q : α → Bool) (b : α)
    (hb : q b = false) :
    ∀ (g rest : List α), (∀ x ∈ g, q x = true) →
      (g ++ b :: rest).dropWhile q = b :: rest := by
  intro g
  induction g with
  | nil =>
    intro rest _
    simp [List.dropWhile_cons, hb]
  | cons a g' ih =>
    intro rest hall
    rw [List.cons_append, List.dropWhile_cons, if_pos (hall a (by simp))]
    exact ih rest fun x hx => hall x (List.mem_cons_of_mem a hx)

theorem takeWhile_all {α : Type} (q : α → Bool) :
    ∀ g : List α, (∀ x ∈ g, q x = true) → g.takeWhile q = g := by
  intro g
  induction g with
  | nil => intro _; rfl
  | cons a g' ih =>
    intro hall
    rw [List.takeWhile_cons, if_pos (hall a (by simp)),
      ih fun x hx => hall x (List.mem_cons_of_mem a hx)]

theorem dropWhile_all {α : Type} (q : α → Bool) :
    ∀ g : List α, (∀ x ∈ g, q x = true) → g.dropWhile q = [] := by
  intro g
  induction g with
  | nil => intro _; rfl
  | cons a g' ih =>
    intro hall
    rw [List.dropWhile_cons, if_pos (hall a (by simp))]
    exact ih fun x hx => hall x (List.mem_cons_of_mem a hx)

theorem chunksBy_spec {α : Type} (p : α → Bool) :
    ∀ l, ∀ g ∈ chunksBy p l, g ≠ [] ∧ ∀ x ∈ g, p x = false := by
  have main : ∀ n, ∀ l : List α, l.length ≤ n →
      ∀ g ∈ chunksBy p l, g ≠ [] ∧ ∀ x ∈ g, p x = false := by
    intro n
    induction n with
    | zero =>
      intro l hl g hg
      have : l = [] := List.eq_nil_of_length_eq_zero (Nat.le_zero.mp hl)
      subst this
      simp [chunksBy] at hg
    | succ n ih =>
      intro l hl g hg
      cases l with
      | nil => simp [chunksBy] at hg
      | cons a as =>
        simp only [chunksBy] at hg
        by_cases hpa : p a = true
        · rw [if_pos hpa] at hg
          exact ih as (by simp at hl; omega) g hg
        · have hpa' : p a = false := by
            revert hpa; cases p a <;> simp
          rw [if_neg hpa] at hg
          rcases List.mem_cons.mp hg with hge | hgt
          · subst hge
            constructor
            · rw [List.takeWhile_cons, if_pos (by simp [hpa'])]
              exact List.cons_ne_nil _ _
            · intro x hx
              have := List.mem_takeWhile_imp hx
              revert this; cases p x <;> simp
          · refine ih (as.dropWhile fun x => !p x) ?_ g hgt
            have : (as.dropWhile fun x => !p x).length ≤ as.length :=
              (List.dropWhile_sublist _).length_le
            simp at hl; omega
  intro l
  exact main l.length l le_rfl

theorem chunksBy_all_not {α : Type} (p : α → Bool) (g : List α)
    (hne : g ≠ []) (hall : ∀ x ∈ g, p x = false) :
    chunksBy p g = [g] := by
  cases g with
  | nil => exact absurd rfl hne
  | cons a as =>
    have hpa : p a = false := hall a (by simp)
    simp only [chunksBy]
    rw [if_neg (by simp [hpa])]
    rw [List.takeWhile_cons, if_pos (by simp [hpa]),
      takeWhile_all _ as (by intro x hx; simp [hall x (List.mem_cons_of_mem a hx)]),
      dropWhile_all _ as (by intro x hx; simp [hall x (List.mem_cons_of_mem a hx)])]
    simp [chunksBy]

theorem chunksBy_interJoin {α : Type} (p : α → Bool) (sep : α)
    (hsep : p sep = true) :
    ∀ gs : List (List α), (∀ g ∈ gs, g ≠ [] ∧ ∀ x ∈ g, p x = false) →
      chunksBy p (interJoin sep gs) = gs := by
  intro gs
  induction gs with
  | nil => intro _; simp [interJoin, chunksBy]
  | cons g gs' ih =>
    intro hall
    obtain ⟨hgne, hgood⟩ := hall g (by simp)
    cases gs' with
    | nil => exact chunksBy_all_not p g hgne hgood
    | cons g2 gs'' =>
      show chunksBy p (g ++ sep :: interJoin sep (g2 :: gs'')) = _
      cases g with
      | nil => exact absurd rfl hgne
      | cons a as =>
        have hpa : p a = false := hgood a (by simp)
        simp only [List.cons_append, chunksBy]
        rw [if_neg (by simp [hpa])]
        have hgood' : ∀ x ∈ as, (fun x => !p x) x = true := by
          intro x hx
          simp [hgood x (List.mem_cons_of_mem a hx)]
        rw [List.takeWhile_cons, if_pos (by simp [hpa]),
          takeWhile_append_of_all _ sep (by simp [hsep]) as _ hgood',
          dropWhile_append_of_all _ sep (by simp [hsep]) as _ hgood']
        have : chunksBy p (sep :: interJoin sep (g2 :: gs'')) =
            chunksBy p (interJoin sep (g2 :: gs'')) := by
          simp only [chunksBy]
          rw [if_pos hsep]
        rw [this, ih fun g' hg' => hall g' (List.mem_cons_of_mem _ hg')]

theorem interJoin_append {α : Type} (sep : α) :
    ∀ l1 l2 : List (List α), l1 ≠ [] → l2 ≠ [] →
      interJoin sep (l1 ++ l2) =
        interJoin sep l1 ++ sep :: interJoin sep l2 := by
  intro l1
  induction l1 with
  | nil => intro l2 h _; exact absurd rfl h
  | cons g l1' ih =>
    intro l2 _ h2
    cases l1' with
    | nil =>
      cases l2 with
      | nil => exact absurd rfl h2
      | cons g2 t2 => simp [interJoin]
    | cons gm t1 =>
      show g ++ sep :: interJoin sep (gm :: t1 ++ l2) = _
      rw [ih l2 (by simp) h2]
      show _ = (g ++ sep :: interJoin sep (gm :: t1)) ++ sep :: interJoin sep l2
      simp [List.append_assoc]

theorem interJoin_map_join {α : Type} (sep : α) :
    ∀ gss : List (List (List α)), (∀ g ∈ gss, g ≠ []) →
      interJoin sep (gss.map (interJoin sep)) = interJoin sep gss.flatten := by
  intro gss
  induction gss with
  | nil => intro _; rfl
  | cons g gss' ih =>
    intro hall
    cases gss' with
    | nil => simp [interJoin, List.flatten]
    | cons g2 t =>
      have hg : g ≠ [] := hall g (by simp)
      have hg2 : g2 ≠ [] := (hall g2 (by simp))
      have hj : (g2 :: t).flatten ≠ [] := by
        cases g2 with
        | nil => exact absurd rfl hg2
        | cons x xs => simp [List.flatten]
      show interJoin sep g ++ sep :: interJoin sep ((g2 :: t).map (interJoin sep)) = _
      rw [ih fun g' hg' => hall g' (List.mem_cons_of_mem _ hg')]
      show _ = interJoin sep (g ++ (g2 :: t).flatten)
      rw [interJoin_append sep g (g2 :: t).flatten hg hj]

theorem wrapLoop_decomp (measure : Str → ℤ) (maxw : ℤ) :
    ∀ ws cur, ∃ gss : List (List Str),
      wrapLoop measure maxw cur ws = gss.map (interJoin ' ') ∧
      gss.flatten = cur ++ ws ∧ ∀ g ∈ gss, g ≠ [] := by
  intro ws
  induction ws with
  | nil =>
    intro cur
    by_cases hcur : cur = []
    · subst hcur
      exact ⟨[], by simp [wrapLoop], by simp [List.flatten], by simp⟩
    · refine ⟨[cur], ?_, by simp [List.flatten], by simp [hcur]⟩
      simp [wrapLoop, List.isEmpty_iff, hcur]
  | cons w ws' ih =>
    intro cur
    by_cases hfit : measure (interJoin ' ' (cur ++ [w])) ≤ maxw
    · obtain ⟨gss, h1, h2, h3⟩ := ih (cur ++ [w])
      refine ⟨gss, ?_, by rw [h2]; simp, h3⟩
      simp only [wrapLoop]
      rw [if_pos hfit]
      exact h1
    · by_cases hcur : cur = []
      · subst hcur
        obtain ⟨gss, h1, h2, h3⟩ := ih [w]
        refine ⟨gss, ?_, by rw [h2]; simp, h3⟩
        simp only [wrapLoop]
        rw [if_neg (by simpa using hfit)]
        simpa using h1
      · obtain ⟨gss, h1, h2, h3⟩ := ih [w]
        refine ⟨cur :: gss, ?_, ?_, ?_⟩
        · simp only [wrapLoop]
          rw [if_neg hfit, if_neg (by simp [List.isEmpty_iff, hcur])]
          rw [h1]
          rfl
        · simp only [List.flatten]
          rw [h2]
          simp
        · intro g hg
          rcases List.mem_cons.mp hg with rfl | hgt
          · exact hcur
          · exact h3 g hgt

/-- C10: wrapping never drops, duplicates, reorders or alters a word —
joining the returned lines with single spaces and re-splitting on
whitespace yields exactly the whitespace-separated words of the input
text — and the returned list is never empty. -/
theorem C10_word_preservation (measure : Str → ℤ) (maxw : ℤ) (text : Str) :
    wrap_text measure maxw text ≠ [] ∧
      pySplit (interJoin ' ' (wrap_text measure maxw text)) = pySplit text := by
  simp only [wrap_text]
  obtain ⟨gss, h1, h2, h3⟩ := wrapLoop_decomp measure maxw (pySplit text) []
  by_cases hws : pySplit text = []
  · rw [hws]
    have hnil : wrapLoop measure maxw [] [] = [] := by simp [wrapLoop]
    rw [hnil]
    refine ⟨by simp, ?_⟩
    simp only [List.isEmpty_nil, if_true]
    show pySplit (interJoin ' ' [text]) = []
    exact hws
  · have hgss : gss ≠ [] := by
      intro h0
      rw [h0] at h2
      simp at h2
      exact hws h2
    have hlines : gss.map (interJoin ' ') ≠ [] := by
      simp only [ne_eq, List.map_eq_nil_iff]
      exact hgss
    rw [h1, if_neg (by simp [List.isEmpty_iff, hlines])]
    refine ⟨hlines, ?_⟩
    have spec : ∀ g ∈ pySplit text, g ≠ [] ∧ ∀ x ∈ g, isWs x = false :=
      chunksBy_spec isWs text
    rw [interJoin_map_join ' ' gss h3, h2]
    simp only [List.nil_append]
    exact chunksBy_interJoin isWs ' ' (by decide) (pySplit text) spec

theorem wrapLoop_lines_good (measure : Str → ℤ) (maxw : ℤ) :
    ∀ ws cur, GoodWords ws → GoodWords cur → PrefixFits measure maxw cur →
      ∀ L ∈ wrapLoop measure maxw cur ws,
        ∃ us, L = interJoin ' ' us ∧ us ≠ [] ∧ GoodWords us ∧
          PrefixFits measure maxw us := by
  intro ws
  induction ws with
  | nil =>
    intro cur _ hcg hcf L hL
    by_cases hcur : cur = []
    · subst hcur
      simp [wrapLoop] at hL
    · rw [show wrapLoop measure maxw cur [] = [interJoin ' ' cur] by
        simp [wrapLoop, List.isEmpty_iff, hcur]] at hL
      rcases List.mem_singleton.mp hL with rfl
      exact ⟨cur, rfl, hcur, hcg, hcf⟩
  | cons w ws' ih =>
    intro cur hwg hcg hcf L hL
    have hwgw : w ≠ [] ∧ ∀ x ∈ w, isWs x = false := hwg w (by simp)
    have hwg' : GoodWords ws' := fun u hu => hwg u (List.mem_cons_of_mem w hu)
    by_cases hfit : measure (interJoin ' ' (cur ++ [w])) ≤ maxw
    · rw [show wrapLoop measure maxw cur (w :: ws') =
          wrapLoop measure maxw (cur ++ [w]) ws' by
        simp only [wrapLoop]; rw [if_pos hfit]] at hL
      refine ih (cur ++ [w]) hwg' ?_ ?_ L hL
      · intro u hu
        rcases List.mem_append.mp hu with hu1 | hu2
        · exact hcg u hu1
        · rcases List.mem_singleton.mp hu2 with rfl
          exact hwgw
      · intro j hj2 hjle
        rcases Nat.lt_or_ge j (cur.length + 1) with hlt | hge
        · have hjc : j ≤ cur.length := by omega
          rw [List.take_append_of_le_length hjc]
          exact hcf j hj2 hjc
        · have hj : j = cur.length + 1 := by
            simp at hjle
            omega
          rw [hj, List.take_of_length_le (by simp)]
          exact hfit
    · by_cases hcur : cur = []
      · subst hcur
        rw [show wrapLoop measure maxw [] (w :: ws') =
            wrapLoop measure maxw [w] ws' by
          simp only [wrapLoop]
          rw [if_neg (by simpa using hfit)]
          simp] at hL
        refine ih [w] hwg' ?_ ?_ L hL
        · intro u hu
          rcases List.mem_singleton.mp hu with rfl
          exact hwgw
        · intro j hj2 hjle
          simp at hjle
          omega
      · rw [show wrapLoop measure maxw cur (w :: ws') =
            interJoin ' ' cur :: wrapLoop measure maxw [w] ws' by
          simp only [wrapLoop]
          rw [if_neg hfit, if_neg (by simp [List.isEmpty_iff, hcur])]] at hL
        rcases List.mem_cons.mp hL with rfl | hLt
        · exact ⟨cur, rfl, hcur, hcg, hcf⟩
        · refine ih [w] hwg' ?_ ?_ L hLt
          · intro u hu
            rcases List.mem_singleton.mp hu with rfl
            exact hwgw
          · intro j hj2 hjle
            simp at hjle
            omega

theorem wrapLoop_all_fit (measure : Str → ℤ) (maxw : ℤ) :
    ∀ rest cur, cur ≠ [] →
      (∀ k, 1 ≤ k → k ≤ rest.length →
        measure (interJoin ' ' (cur ++ rest.take k)) ≤ maxw) →
      wrapLoop measure maxw cur rest = [interJoin ' ' (cur ++ rest)] := by
  intro rest
  induction rest with
  | nil =>
    intro cur hcur _
    simp [wrapLoop, List.isEmpty_iff, hcur]
  | cons w rs ih =>
    intro cur hcur hall
    have h1 : measure (interJoin ' ' (cur ++ [w])) ≤ maxw := by
      have := hall 1 (le_refl 1) (by simp)
      simpa using this
    simp only [wrapLoop]
    rw [if_pos h1]
    rw [ih (cur ++ [w]) (by simp) ?_]
    · simp
    · intro k hk1 hkle
      have := hall (k + 1) (by omega) (by simp; omega)
      rw [List.take_succ_cons] at this
      simpa [List.append_assoc] using this

/-- C6: every line `L` of `_wrap_text text font max_width` satisfies
`_wrap_text L font max_width = [L]` — re-wrapping already-wrapped lines
with the same width produces the same line breaks (with the font
abstracted as an arbitrary width-measuring function). -/
theorem C6_wrap_idempotent (measure : Str → ℤ) (maxw : ℤ) (text L : Str)
    (hL : L ∈ wrap_text measure maxw text) :
    wrap_text measure maxw L = [L] := by
  simp only [wrap_text] at hL ⊢
  by_cases hws : pySplit text = []
  · rw [hws] at hL
    have hnil : wrapLoop measure maxw [] [] = [] := by simp [wrapLoop]
    rw [hnil] at hL
    simp only [List.isEmpty_nil, if_true] at hL
    rcases List.mem_singleton.mp hL with rfl
    rw [hws, hnil]
    simp
  · obtain ⟨gss, hg1, hg2, hg3⟩ := wrapLoop_decomp measure maxw (pySplit text) []
    have hgss : gss ≠ [] := by
      intro h0
      rw [h0] at hg2
      simp at hg2
      exact hws hg2
    have hlines : wrapLoop measure maxw [] (pySplit text) ≠ [] := by
      rw [hg1]
      simp only [ne_eq, List.map_eq_nil_iff]
      exact hgss
    rw [if_neg (by simp [List.isEmpty_iff, hlines])] at hL
    have hgood : GoodWords (pySplit text) := fun u hu => chunksBy_spec isWs text u hu
    obtain ⟨us, rfl, husne, husg, husf⟩ :=
      wrapLoop_lines_good measure maxw (pySplit text) [] hgood
        (fun u hu => absurd hu (List.not_mem_nil u))
        (fun j h2 hle => by simp at hle; omega) L hL
    have hsplit : pySplit (interJoin ' ' us) = [us].flatten := by
      simp only [List.flatten, List.append_nil]
      exact chunksBy_interJoin isWs ' ' (by decide) us husg
    simp only [List.flatten, List.append_nil] at hsplit
    rw [hsplit]
    obtain ⟨u, urest, rfl⟩ : ∃ u urest, us = u :: urest := by
      cases us with
      | nil => exact absurd rfl husne
      | cons a b => exact ⟨a, b, rfl⟩
    rw [wrapLoop_nil_cons,
      wrapLoop_all_fit measure maxw urest [u] (by simp) ?_]
    · simp
    · intro k hk1 hkle
      have := husf (k + 1) (by omega) (by simp; omega)
      rw [List.take_succ_cons] at this
      simpa using this

/-- Witness for C6: wrapping `"aa bb cc"` at width 5 under the
character-count measure produces `["aa bb", "cc"]`, and re-wrapping the
line `"aa bb"` reproduces exactly `["aa bb"]`. -/
theorem C6_wrap_idempotent_witness :
    lineC6 ∈ wrap_text lenMeasure 5 textC6 ∧
      wrap_text lenMeasure 5 lineC6 = [lineC6] :=
  ⟨by with_unfolding_all decide,
    C6_wrap_idempotent lenMeasure 5 textC6 lineC6
      (by with_unfolding_all decide)⟩

/-! ## Lines, stripping and digits -/

theorem splitLines_no_nl :
    ∀ s : Str, '\n' ∉ s → splitLines s = [s] := by
  intro s
  induction s with
  | nil => intro _; rfl
  | cons c t ih =>
    intro hnl
    have hc : ¬ c = '\n' := fun e => hnl (by rw [e]; simp)
    simp only [splitLines]
    rw [if_neg hc, ih fun hm => hnl (List.mem_cons_of_mem c hm)]

theorem splitLines_append_nl :
    ∀ (x y : Str), '\n' ∉ x →
      splitLines (x ++ '\n' :: y) = x :: splitLines y := by
  intro x
  induction x with
  | nil =>
    intro y _
    simp only [List.nil_append, splitLines, if_true]
  | cons c t ih =>
    intro y hnl
    have hc : ¬ c = '\n' := fun e => hnl (by rw [e]; simp)
    simp only [List.cons_append, splitLines, List.append_eq]
    rw [if_neg hc, ih y fun hm => hnl (List.mem_cons_of_mem c hm)]

theorem splitLines_interJoin :
    ∀ ls : List Str, ls ≠ [] → (∀ l ∈ ls, '\n' ∉ l) →
      splitLines (interJoin '\n' ls) = ls := by
  intro ls
  induction ls with
  | nil => intro h _; exact absurd rfl h
  | cons l ls' ih =>
    intro _ hall
    cases ls' with
    | nil => exact splitLines_no_nl l (hall l (by simp))
    | cons l2 t =>
      show splitLines (l ++ '\n' :: interJoin '\n' (l2 :: t)) = _
      rw [splitLines_append_nl l _ (hall l (by simp)),
        ih (by simp) fun x hx => hall x (List.mem_cons_of_mem l hx)]

theorem dropTrailWs_concat_false (y : Str) (b : Char) (hb : isWs b = false) :
    dropTrailWs (y ++ [b]) = y ++ [b] := by
  unfold dropTrailWs
  rw [List.reverse_append]
  simp only [List.reverse_cons, List.reverse_nil, List.nil_append,
    List.cons_append, List.dropWhile_cons]
  rw [hb]
  simp

theorem pyStrip_eq_self_of_ends (a : Char) (y : Str) (b : Char)
    (ha : isWs a = false) (hb : isWs b = false) :
    pyStrip (a :: (y ++ [b])) = a :: (y ++ [b]) := by
  unfold pyStrip
  rw [List.dropWhile_cons]
  rw [ha]
  simp only [Bool.false_eq_true, if_false]
  have := dropTrailWs_concat_false (a :: y) b hb
  simpa using this

theorem pyStrip_all_false (s : Str) (hall : ∀ c ∈ s, isWs c = false) :
    pyStrip s = s := by
  unfold pyStrip
  have h1 : s.dropWhile isWs = s := by
    cases s with
    | nil => rfl
    | cons c t =>
      rw [List.dropWhile_cons, hall c (by simp)]
      simp
  rw [h1]
  unfold dropTrailWs
  have h2 : s.reverse.dropWhile isWs = s.reverse := by
    cases hr : s.reverse with
    | nil => rfl
    | cons c t =>
      rw [List.dropWhile_cons, hall c (by rw [← List.mem_reverse, hr]; simp)]
      simp
  rw [h2, List.reverse_reverse]

theorem digitChar_spec (d : ℕ) (hd : d < 10) :
    (digitChar d).isDigit = true ∧ digitVal (digitChar d) = d := by
  interval_cases d <;> exact ⟨by decide, by decide⟩

theorem ws_not_digit (c : Char) (h : isWs c = true) : c.isDigit = false := by
  simp only [isWs, Char.isWhitespace, Bool.or_eq_true, decide_eq_true_eq] at h
  rcases h with ((h | h) | h) | h <;> subst h <;> decide

theorem isDigit_not_ws (c : Char) (h : c.isDigit = true) : isWs c = false := by
  cases hw : isWs c
  · rfl
  · rw [ws_not_digit c hw] at h
    cases h

theorem isDigit_ne_nl (c : Char) (h : c.isDigit = true) : c ≠ '\n' := by
  intro e
  subst e
  cases h

theorem natDigits_all_digit :
    ∀ n, ∀ c ∈ natDigits n, c.isDigit = true := by
  intro n
  induction n using Nat.strong_induction_on with
  | _ n ih =>
    intro c hc
    rw [natDigits] at hc
    split at hc
    · next hn =>
      rcases List.mem_singleton.mp hc with rfl
      exact (digitChar_spec n hn).1
    · next hn =>
      rcases List.mem_append.mp hc with h1 | h2
      · exact ih (n / 10) (Nat.div_lt_self (by omega) (by omega)) c h1
      · rcases List.mem_singleton.mp h2 with rfl
        exact (digitChar_spec (n % 10) (Nat.mod_lt n (by omega))).1

theorem natDigits_ne_nil (n : ℕ) : natDigits n ≠ [] := by
  rw [natDigits]
  split
  · simp
  · simp

theorem digitsValFrom_append (acc : ℕ) (a b : Str) :
    digitsValFrom acc (a ++ b) = digitsValFrom (digitsValFrom acc a) b := by
  unfold digitsValFrom
  rw [List.foldl_append]

theorem digitsValFrom_natDigits :
    ∀ n acc, digitsValFrom acc (natDigits n) =
      acc * 10 ^ (natDigits n).length + n := by
  intro n
  induction n using Nat.strong_induction_on with
  | _ n ih =>
    intro acc
    rw [natDigits]
    split
    · next hn =>
      simp [digitsValFrom, (digitChar_spec n hn).2]
    · next hn =>
      rw [digitsValFrom_append,
        ih (n / 10) (Nat.div_lt_self (by omega) (by omega))]
      simp only [digitsValFrom, List.foldl_cons, List.foldl_nil,
        (digitChar_spec (n % 10) (Nat.mod_lt n (by omega))).2,
        List.length_append, List.length_singleton]
      rw [pow_succ]
      have : 10 * (n / 10) + n % 10 = n := Nat.div_add_mod n 10
      ring_nf
      omega

theorem digitsVal_natDigits (n : ℕ) : digitsVal (natDigits n) = n := by
  unfold digitsVal
  rw [digitsValFrom_natDigits]
  simp

theorem parseDigits_natDigits (n : ℕ) : parseDigits (natDigits n) = some n := by
  unfold parseDigits
  rw [if_pos ⟨natDigits_ne_nil n, List.all_eq_true.mpr (natDigits_all_digit n)⟩,
    digitsVal_natDigits]

theorem pyParseInt_intStr (n : ℤ) : pyParseInt (intStr n) = some n := by
  have hstrip : pyStrip (intStr n) = intStr n := by
    refine pyStrip_all_false _ ?_
    intro c hc
    unfold intStr at hc
    split at hc
    · rcases List.mem_cons.mp hc with rfl | hm
      · decide
      · exact isDigit_not_ws c (natDigits_all_digit _ c hm)
    · exact isDigit_not_ws c (natDigits_all_digit _ c hc)
  unfold pyParseInt
  rw [hstrip]
  unfold intStr
  by_cases hn : n < 0
  · rw [if_pos hn]
    show (if ('-' : Char) = '-' then (parseDigits (natDigits n.natAbs)).map
        (fun m => -(m : ℤ)) else _) = some n
    rw [if_pos rfl, parseDigits_natDigits]
    exact congrArg some (by show -((n.natAbs : ℕ) : ℤ) = n; omega)
  · rw [if_neg hn]
    obtain ⟨c, rest, hcr⟩ : ∃ c rest, natDigits n.toNat = c :: rest := by
      cases hx : natDigits n.toNat with
      | nil => exact absurd hx (natDigits_ne_nil _)
      | cons a b => exact ⟨a, b, rfl⟩
    rw [hcr]
    have hcd : c.isDigit = true := natDigits_all_digit _ c (by rw [hcr]; simp)
    show (if c = '-' then _ else if c = '+' then _
      else (parseDigits (c :: rest)).map fun m => (m : ℤ)) = some n
    rw [if_neg (fun e => by subst e; exact absurd hcd (by decide)),
      if_neg (fun e => by subst e; exact absurd hcd (by decide)),
      ← hcr, parseDigits_natDigits]
    exact congrArg some (by show ((n.toNat : ℕ) : ℤ) = n; omega)

theorem natDigits_length_le_two (n : ℕ) (hn : n < 100) :
    (natDigits n).length ≤ 2 := by
  rw [natDigits]
  split
  · simp
  · next h =>
    rw [natDigits]
    rw [dif_pos (show n / 10 < 10 by omega)]
    simp

theorem natDigits_length_le_three (n : ℕ) (hn : n < 1000) :
    (natDigits n).length ≤ 3 := by
  rw [natDigits]
  split
  · simp
  · next h =>
    simp only [List.length_append, List.length_singleton]
    have := natDigits_length_le_two (n / 10) (by omega)
    omega

theorem padZero_digits (k : ℕ) (n : ℤ) (h0 : 0 ≤ n)
    (hlen : (natDigits n.toNat).length ≤ k) :
    (padZero k n).length = k ∧ (∀ c ∈ padZero k n, c.isDigit = true) ∧
      digitsValFrom 0 (padZero k n) = n.toNat := by
  unfold padZero
  rw [if_neg (by omega)]
  unfold leftPad
  refine ⟨?_, ?_, ?_⟩
  · simp only [List.length_append, List.length_replicate]
    omega
  · intro c hc
    rcases List.mem_append.mp hc with h1 | h2
    · rcases List.eq_of_mem_replicate h1 with rfl
      decide
    · exact natDigits_all_digit _ c h2
  · rw [digitsValFrom_append]
    have hz : ∀ j, digitsValFrom 0 (List.replicate j '0') = 0 := by
      intro j
      induction j with
      | zero => rfl
      | succ j ih =>
        rw [List.replicate_succ]
        show digitsValFrom (0 * 10 + digitVal '0') (List.replicate j '0') = 0
        rw [show (0 * 10 + digitVal '0') = 0 from by decide]
        exact ih
    rw [hz, digitsValFrom_natDigits]
    simp

theorem readFixedNatAux_exact :
    ∀ (s : Str) (acc : ℕ) (rest : Str), (∀ c ∈ s, c.isDigit = true) →
      readFixedNatAux acc s.length (s ++ rest) =
        some (digitsValFrom acc s, rest) := by
  intro s
  induction s with
  | nil => intro acc rest _; rfl
  | cons c t ih =>
    intro acc rest hall
    show readFixedNatAux acc (t.length + 1) (c :: (t ++ rest)) = _
    simp only [readFixedNatAux]
    rw [if_pos (hall c (by simp))]
    exact ih (acc * 10 + digitVal c) rest
      fun x hx => hall x (List.mem_cons_of_mem c hx)

theorem readFixedNat_padZero (k : ℕ) (n : ℤ) (rest : Str) (h0 : 0 ≤ n)
    (hlen : (natDigits n.toNat).length ≤ k) :
    readFixedNat k (padZero k n ++ rest) = some (n.toNat, rest) := by
  obtain ⟨hl, hd, hv⟩ := padZero_digits k n h0 hlen
  unfold readFixedNat
  nth_rewrite 1 [← hl]
  rw [readFixedNatAux_exact (padZero k n) 0 rest hd, hv]

theorem pymod_nonneg (a b : ℚ) (hb : 0 < b) : 0 ≤ pymod a b := by
  unfold pymod
  have h1 : ((⌊a / b⌋ : ℤ) : ℚ) ≤ a / b := Int.floor_le _
  have h2 : b * ((⌊a / b⌋ : ℤ) : ℚ) ≤ b * (a / b) :=
    mul_le_mul_of_nonneg_left h1 hb.le
  have h3 : b * (a / b) = a := by field_simp
  linarith

theorem pymod_lt (a b : ℚ) (hb : 0 < b) : pymod a b < b := by
  unfold pymod
  have h1 : a / b < ((⌊a / b⌋ : ℤ) : ℚ) + 1 := Int.lt_floor_add_one _
  have h2 : b * (a / b) < b * (((⌊a / b⌋ : ℤ) : ℚ) + 1) :=
    mul_lt_mul_of_pos_left h1 hb
  have h3 : b * (a / b) = a := by field_simp
  nlinarith

theorem floor_pymod_sixty (q : ℚ) :
    ⌊pymod q 60⌋ = ⌊q⌋ - 60 * ⌊q / 60⌋ := by
  unfold pymod
  rw [show (60 : ℚ) * ((⌊q / 60⌋ : ℤ) : ℚ) = ((60 * ⌊q / 60⌋ : ℤ) : ℚ) by
    push_cast; ring]
  rw [Int.floor_sub_int]

theorem floor_pymod_div (q : ℚ) :
    ⌊pymod q 3600 / 60⌋ = ⌊q / 60⌋ - 60 * ⌊q / 3600⌋ := by
  have h : pymod q 3600 / 60 = q / 60 - ((60 * ⌊q / 3600⌋ : ℤ) : ℚ) := by
    unfold pymod
    push_cast
    ring
  rw [h, Int.floor_sub_int]

theorem readStamp_format (q : ℚ) (r : Str) (h0 : 0 ≤ q) (h1 : q < 360000) :
    readStamp (format_timestamp q ++ r) = some (msFloor q, r) := by
  have h3600 : (0 : ℚ) < 3600 := by norm_num
  have h60 : (0 : ℚ) < 60 := by norm_num
  have hzh0 : (0 : ℤ) ≤ ⌊q / 3600⌋ :=
    Int.floor_nonneg.mpr (div_nonneg h0 (by norm_num))
  have hzh2 : ⌊q / 3600⌋ < 100 := by
    have hq : q / 3600 < 100 := (div_lt_iff₀ h3600).mpr (by linarith)
    exact Int.floor_lt.mpr (by exact_mod_cast hq)
  have hm0 : 0 ≤ pymod q 3600 := pymod_nonneg q 3600 h3600
  have hmlt : pymod q 3600 < 3600 := pymod_lt q 3600 h3600
  have hzm0 : (0 : ℤ) ≤ ⌊pymod q 3600 / 60⌋ :=
    Int.floor_nonneg.mpr (div_nonneg hm0 (by norm_num))
  have hzm2 : ⌊pymod q 3600 / 60⌋ < 60 := by
    have hq : pymod q 3600 / 60 < 60 := (div_lt_iff₀ h60).mpr (by linarith)
    exact Int.floor_lt.mpr (by exact_mod_cast hq)
  have hs0 : 0 ≤ pymod q 60 := pymod_nonneg q 60 h60
  have hslt : pymod q 60 < 60 := pymod_lt q 60 h60
  have hzs_eq : pytrunc (pymod q 60) = ⌊pymod q 60⌋ := by
    unfold pytrunc
    rw [if_neg (not_lt.mpr hs0)]
  have hzs0 : (0 : ℤ) ≤ ⌊pymod q 60⌋ := Int.floor_nonneg.mpr hs0
  have hzs2 : ⌊pymod q 60⌋ < 60 := Int.floor_lt.mpr (by exact_mod_cast hslt)
  have hq_tr : pytrunc q = ⌊q⌋ := by
    unfold pytrunc
    rw [if_neg (not_lt.mpr h0)]
  have hfr0 : 0 ≤ q - ((⌊q⌋ : ℤ) : ℚ) := by linarith [Int.floor_le q]
  have hfr1 : q - ((⌊q⌋ : ℤ) : ℚ) < 1 := by linarith [Int.lt_floor_add_one q]
  have hms_arg0 : 0 ≤ (q - ((⌊q⌋ : ℤ) : ℚ)) * 1000 := by nlinarith
  have hcast : (q - ((⌊q⌋ : ℤ) : ℚ)) * 1000 =
      q * 1000 - ((1000 * ⌊q⌋ : ℤ) : ℚ) := by push_cast; ring
  have hms_eq : pytrunc ((q - ((⌊q⌋ : ℤ) : ℚ)) * 1000) =
      ⌊q * 1000⌋ - 1000 * ⌊q⌋ := by
    unfold pytrunc
    rw [if_neg (not_lt.mpr hms_arg0), hcast, Int.floor_sub_int]
  have hzms0 : (0 : ℤ) ≤ ⌊q * 1000⌋ - 1000 * ⌊q⌋ := by
    have h := Int.floor_nonneg.mpr hms_arg0
    rw [hcast, Int.floor_sub_int] at h
    exact h
  have hzms2 : ⌊q * 1000⌋ - 1000 * ⌊q⌋ < 1000 := by
    have harg : (q - ((⌊q⌋ : ℤ) : ℚ)) * 1000 < ((1000 : ℤ) : ℚ) := by
      push_cast
      nlinarith
    have h := Int.floor_lt.mpr harg
    rw [hcast, Int.floor_sub_int] at h
    exact h
  simp only [format_timestamp, hq_tr, hzs_eq, hms_eq, List.append_assoc,
    List.cons_append]
  unfold readStamp
  rw [readFixedNat_padZero 2 ⌊q / 3600⌋ _ hzh0
    (natDigits_length_le_two _ (by omega))]
  simp only [Option.bind_eq_bind, Option.some_bind, expectChar, if_true]
  rw [readFixedNat_padZero 2 ⌊pymod q 3600 / 60⌋ _ hzm0
    (natDigits_length_le_two _ (by omega))]
  simp only [Option.bind_eq_bind, Option.some_bind, expectChar, if_true]
  rw [readFixedNat_padZero 2 ⌊pymod q 60⌋ _ hzs0
    (natDigits_length_le_two _ (by omega))]
  simp only [Option.bind_eq_bind, Option.some_bind, expectChar, if_true]
  rw [readFixedNat_padZero 3 (⌊q * 1000⌋ - 1000 * ⌊q⌋) _ hzms0
    (natDigits_length_le_three _ (by omega))]
  simp only [Option.bind_eq_bind, Option.some_bind]
  congr 1
  congr 1
  have hfloor_s : ⌊pymod q 60⌋ = ⌊q⌋ - 60 * ⌊q / 60⌋ := floor_pymod_sixty q
  have hfloor_m : ⌊pymod q 3600 / 60⌋ = ⌊q / 60⌋ - 60 * ⌊q / 3600⌋ :=
    floor_pymod_div q
  have c1 : ((⌊q / 3600⌋.toNat : ℕ) : ℚ) = ((⌊q / 3600⌋ : ℤ) : ℚ) := by
    exact_mod_cast Int.toNat_of_nonneg hzh0
  have c2 : ((⌊pymod q 3600 / 60⌋.toNat : ℕ) : ℚ) =
      ((⌊pymod q 3600 / 60⌋ : ℤ) : ℚ) := by
    exact_mod_cast Int.toNat_of_nonneg hzm0
  have c3 : ((⌊pymod q 60⌋.toNat : ℕ) : ℚ) = ((⌊pymod q 60⌋ : ℤ) : ℚ) := by
    exact_mod_cast Int.toNat_of_nonneg hzs0
  have c4 : (((⌊q * 1000⌋ - 1000 * ⌊q⌋).toNat : ℕ) : ℚ) =
      ((⌊q * 1000⌋ - 1000 * ⌊q⌋ : ℤ) : ℚ) := by
    exact_mod_cast Int.toNat_of_nonneg hzms0
  rw [c1, c2, c3, c4, hfloor_s, hfloor_m]
  unfold msFloor
  push_cast
  field_simp
  ring

theorem padZero_head_digit (k : ℕ) (n : ℤ) (h0 : 0 ≤ n) :
    ∃ c rest, padZero k n = c :: rest ∧ c.isDigit = true := by
  unfold padZero
  rw [if_neg (by omega)]
  unfold leftPad
  cases hr : List.replicate (k - (natDigits n.toNat).length) '0' with
  | nil =>
    simp only [List.nil_append]
    cases hx : natDigits n.toNat with
    | nil => exact absurd hx (natDigits_ne_nil _)
    | cons c rest =>
      exact ⟨c, rest, rfl, natDigits_all_digit _ c (by rw [hx]; simp)⟩
  | cons c rest =>
    refine ⟨c, rest ++ natDigits n.toNat, by simp, ?_⟩
    have hm : c ∈ List.replicate (k - (natDigits n.toNat).length) '0' := by
      rw [hr]; simp
    rcases List.eq_of_mem_replicate hm with rfl
    decide

theorem format_timestamp_head_digit (q : ℚ) (h0 : 0 ≤ q) :
    ∃ c rest, format_timestamp q = c :: rest ∧ c.isDigit = true := by
  obtain ⟨c, rest, hc, hd⟩ := padZero_head_digit 2 ⌊q / 3600⌋
    (Int.floor_nonneg.mpr (div_nonneg h0 (by norm_num)))
  refine ⟨c, rest ++ ':' :: padZero 2 ⌊pymod q 3600 / 60⌋ ++ ':' ::
      padZero 2 (pytrunc (pymod q 60)) ++ ',' ::
      padZero 3 (pytrunc ((q - ((pytrunc q : ℤ) : ℚ)) * 1000)), ?_, hd⟩
  simp only [format_timestamp]
  rw [hc]
  simp

theorem dropWhile_format (q : ℚ) (h0 : 0 ≤ q) :
    (format_timestamp q).dropWhile isWs = format_timestamp q := by
  obtain ⟨c, rest, hc, hd⟩ := format_timestamp_head_digit q h0
  rw [hc, List.dropWhile_cons, isDigit_not_ws c hd]
  simp

theorem parse_time_line_format (a b : ℚ) (ha0 : 0 ≤ a) (ha1 : a < 360000)
    (hb0 : 0 ≤ b) (hb1 : b < 360000) :
    parse_time_line (format_timestamp a ++ [' ', '-', '-', '>', ' '] ++
      format_timestamp b) = some (msFloor a, msFloor b) := by
  unfold parse_time_line
  rw [List.append_assoc, readStamp_format a _ ha0 ha1]
  simp only [Option.bind_eq_bind, Option.some_bind]
  rw [show ([' ', '-', '-', '>', ' '] ++ format_timestamp b).dropWhile isWs =
      '-' :: '-' :: '>' :: ' ' :: format_timestamp b from by
    simp only [List.cons_append, List.nil_append]
    rw [List.dropWhile_cons, if_pos (show isWs ' ' = true from by decide),
      List.dropWhile_cons, if_neg (show ¬ isWs '-' = true from by decide)]]
  simp only [if_true, Option.bind_eq_bind, Option.some_bind, expectChar,
    if_pos (rfl : ('-' : Char) = '-'), if_pos (rfl : ('>' : Char) = '>')]
  rw [show (' ' :: format_timestamp b).dropWhile isWs = format_timestamp b
      from by
    rw [List.dropWhile_cons, if_pos (show isWs ' ' = true from by decide)]
    exact dropWhile_format b hb0]
  rw [← List.append_nil (format_timestamp b), readStamp_format b [] hb0 hb1]
  simp only [Option.bind_eq_bind, Option.some_bind]

theorem entryBlock_eq (e : SubtitleEntry) :
    entryBlock e = interJoin '\n' (cueLines e) ++ ['\n'] := by
  unfold entryBlock cueLines
  show _ = (intStr e.index ++ '\n' ::
    (format_timestamp e.start_time ++ [' ', '-', '-', '>', ' '] ++
      format_timestamp e.end_time ++ '\n' :: e.text)) ++ ['\n']
  simp [List.append_assoc]

theorem interJoin_ne_nil {α : Type} (sep : α) (g : List α)
    (gs : List (List α)) (hg : g ≠ []) : interJoin sep (g :: gs) ≠ [] := by
  cases gs with
  | nil => exact hg
  | cons g2 t =>
    show g ++ sep :: interJoin sep (g2 :: t) ≠ []
    simp

theorem gen_eq :
    ∀ subs : List SubtitleEntry, subs ≠ [] →
      generate_srt_content subs =
        interJoin '\n' (interJoin [] (subs.map cueLines)) ++ ['\n'] := by
  intro subs
  induction subs with
  | nil => intro h; exact absurd rfl h
  | cons e rest ih =>
    intro _
    cases rest with
    | nil =>
      show interJoin '\n' [entryBlock e] = _
      show entryBlock e = _
      rw [entryBlock_eq]
      rfl
    | cons e2 rest' =>
      have hS : interJoin ([] : Str) ((e2 :: rest').map cueLines) ≠ [] := by
        show interJoin ([] : Str) (cueLines e2 :: rest'.map cueLines) ≠ []
        exact interJoin_ne_nil _ _ _ (by simp [cueLines])
      show interJoin '\n' (entryBlock e :: (e2 :: rest').map entryBlock) = _
      rw [show interJoin '\n' (entryBlock e :: (e2 :: rest').map entryBlock) =
          entryBlock e ++ '\n' ::
            interJoin '\n' ((e2 :: rest').map entryBlock) from rfl]
      have hgen : interJoin '\n' ((e2 :: rest').map entryBlock) =
          generate_srt_content (e2 :: rest') := by
        unfold generate_srt_content
        rw [if_neg (by simp)]
      rw [hgen, ih (by simp), entryBlock_eq]
      show _ = interJoin '\n'
        (interJoin [] (cueLines e :: (e2 :: rest').map cueLines)) ++ ['\n']
      rw [show interJoin ([] : Str) (cueLines e :: (e2 :: rest').map cueLines) =
          cueLines e ++ [] :: interJoin [] ((e2 :: rest').map cueLines)
          from rfl]
      rw [interJoin_append '\n' (cueLines e)
        ([] :: interJoin [] ((e2 :: rest').map cueLines))
        (by simp [cueLines]) (by simp)]
      rw [show interJoin '\n'
          (([] : Str) :: interJoin [] ((e2 :: rest').map cueLines)) =
          ([] : Str) ++ '\n' ::
            interJoin '\n' (interJoin [] ((e2 :: rest').map cueLines)) from by
        cases hx : interJoin ([] : Str) ((e2 :: rest').map cueLines) with
        | nil => exact absurd hx hS
        | cons l ls => rfl]
      simp [List.append_assoc]

theorem cueInvariantsFrom_mem :
    ∀ (subs : List SubtitleEntry) (k : ℤ), cueInvariantsFrom k subs = true →
      ∀ e ∈ subs, 0 ≤ e.start_time ∧ e.start_time < e.end_time ∧
        e.text ≠ [] ∧ '\n' ∉ e.text := by
  intro subs
  induction subs with
  | nil => intro k _ e he; cases he
  | cons c rest ih =>
    intro k h e he
    unfold cueInvariantsFrom at h
    simp only [Bool.and_eq_true, decide_eq_true_eq] at h
    obtain ⟨⟨⟨⟨⟨-, hst⟩, hlt⟩, hne⟩, hnl⟩, hrest⟩ := h
    rcases List.mem_cons.mp he with rfl | hm
    · exact ⟨hst, hlt, hne, hnl⟩
    · exact ih (k + 1) hrest e hm

theorem roundTripSafe_mem (subs : List SubtitleEntry)
    (h : roundTripSafe subs = true) :
    ∀ e ∈ subs, e.start_time < 360000 ∧ e.end_time < 360000 ∧
      isWs (e.text.getLastD 'x') = false := by
  intro e he
  have := List.all_eq_true.mp h e he
  simp only [Bool.and_eq_true, decide_eq_true_eq] at this
  exact ⟨this.1.1, this.1.2, this.2⟩

theorem intStr_chars (n : ℤ) :
    ∀ c ∈ intStr n, c = '-' ∨ c.isDigit = true := by
  intro c hc
  unfold intStr at hc
  split at hc
  · rcases List.mem_cons.mp hc with rfl | hm
    · exact Or.inl rfl
    · exact Or.inr (natDigits_all_digit _ c hm)
  · exact Or.inr (natDigits_all_digit _ c hc)

theorem intStr_head (n : ℤ) :
    ∃ c rest, intStr n = c :: rest ∧ isWs c = false := by
  unfold intStr
  split
  · exact ⟨'-', _, rfl, by decide⟩
  · cases hx : natDigits n.toNat with
    | nil => exact absurd hx (natDigits_ne_nil _)
    | cons c rest =>
      exact ⟨c, rest, rfl,
        isDigit_not_ws c (natDigits_all_digit _ c (by rw [hx]; simp))⟩

theorem padZero_chars (k : ℕ) (n : ℤ) :
    ∀ c ∈ padZero k n, c = '-' ∨ c.isDigit = true := by
  intro c hc
  unfold padZero leftPad at hc
  split at hc
  · rcases List.mem_cons.mp hc with rfl | hm
    · exact Or.inl rfl
    · rcases List.mem_append.mp hm with h1 | h2
      · rcases List.eq_of_mem_replicate h1 with rfl
        exact Or.inr (by decide)
      · exact Or.inr (natDigits_all_digit _ c h2)
  · rcases List.mem_append.mp hc with h1 | h2
    · rcases List.eq_of_mem_replicate h1 with rfl
      exact Or.inr (by decide)
    · exact Or.inr (natDigits_all_digit _ c h2)

theorem format_timestamp_chars (q : ℚ) :
    ∀ c ∈ format_timestamp q, c ≠ '\n' := by
  intro c hc
  have hsplit : c ∈ padZero 2 ⌊q / 3600⌋ ∨ c = ':' ∨
      c ∈ padZero 2 ⌊pymod q 3600 / 60⌋ ∨ c = ':' ∨
      c ∈ padZero 2 (pytrunc (pymod q 60)) ∨ c = ',' ∨
      c ∈ padZero 3 (pytrunc ((q - ((pytrunc q : ℤ) : ℚ)) * 1000)) := by
    simp only [format_timestamp, List.mem_append, List.mem_cons] at hc
    tauto
  intro heq
  subst heq
  have hpz : ∀ (k : ℕ) (n : ℤ), '\n' ∈ padZero k n → False := by
    intro k n hm
    rcases padZero_chars k n _ hm with h | hd
    · exact absurd h (by decide)
    · exact absurd hd (by decide)
  rcases hsplit with h | h | h | h | h | h | h
  · exact hpz _ _ h
  · exact absurd h (by decide)
  · exact hpz _ _ h
  · exact absurd h (by decide)
  · exact hpz _ _ h
  · exact absurd h (by decide)
  · exact hpz _ _ h

theorem intStr_noNl (n : ℤ) : '\n' ∉ intStr n := by
  intro hm
  rcases intStr_chars n _ hm with h | hd
  · exact absurd h (by decide)
  · exact absurd hd (by decide)

theorem timeLine_noNl (a b : ℚ) :
    '\n' ∉ format_timestamp a ++ [' ', '-', '-', '>', ' '] ++
      format_timestamp b := by
  intro hm
  rcases List.mem_append.mp hm with h1 | h2
  · rcases List.mem_append.mp h1 with h3 | h4
    · exact format_timestamp_chars a _ h3 rfl
    · exact absurd h4 (by decide)
  · exact format_timestamp_chars b _ h2 rfl

theorem not_blank_of_mem (l : Str) (c : Char) (hc : c ∈ l)
    (hw : isWs c = false) : isBlankLine l = false := by
  cases hb : isBlankLine l
  · rfl
  · rw [List.all_eq_true.mp hb c hc] at hw
    cases hw

theorem cueLines_lines_ok (e : SubtitleEntry) (hst0 : 0 ≤ e.start_time)
    (htne : e.text ≠ []) (htnl : '\n' ∉ e.text)
    (htws : isWs (e.text.getLastD 'x') = false) :
    ∀ l ∈ cueLines e, '\n' ∉ l ∧ isBlankLine l = false := by
  intro l hl
  unfold cueLines at hl
  rcases List.mem_cons.mp hl with rfl | hl2
  · refine ⟨intStr_noNl e.index, ?_⟩
    obtain ⟨c, rest, hc, hw⟩ := intStr_head e.index
    exact not_blank_of_mem _ c (by rw [hc]; simp) hw
  · rcases List.mem_cons.mp hl2 with rfl | hl3
    · refine ⟨timeLine_noNl _ _, ?_⟩
      obtain ⟨c, rest, hc, hd⟩ := format_timestamp_head_digit e.start_time hst0
      refine not_blank_of_mem _ c ?_ (isDigit_not_ws c hd)
      rw [List.append_assoc, hc]
      simp
    · rcases List.mem_cons.mp hl3 with rfl | hl4
      · exact ⟨htnl,
          not_blank_of_mem _ _ (getLastD_mem e.text 'x' htne) htws⟩
      · exact absurd hl4 (List.not_mem_nil l)

/-! ## Joining and stripping blocks -/

theorem interJoin_cons_ne {α : Type} (sep : α) (g : List α)
    (l : List (List α)) (hl : l ≠ []) :
    interJoin sep (g :: l) = g ++ sep :: interJoin sep l := by
  cases l with
  | nil => exact absurd rfl hl
  | cons x t => rfl

theorem interJoin_head_cons {α : Type} (sep x : α) (g : List α)
    (gs : List (List α)) :
    ∃ t, interJoin sep ((x :: g) :: gs) = x :: t := by
  cases gs with
  | nil => exact ⟨g, rfl⟩
  | cons h2 t2 => exact ⟨g ++ sep :: interJoin sep (h2 :: t2), rfl⟩

theorem getLastD_irrel {α : Type} (l : List α) (hl : l ≠ []) (d1 d2 : α) :
    l.getLastD d1 = l.getLastD d2 := by
  cases l with
  | nil => exact absurd rfl hl
  | cons a t =>
    rw [List.getLastD_cons, List.getLastD_cons]

theorem getLastD_append_right {α : Type} (x y : List α) (d : α)
    (hy : y ≠ []) : (x ++ y).getLastD d = y.getLastD d := by
  rw [List.getLastD_eq_getLast?, List.getLastD_eq_getLast?]
  exact congrArg (fun o => o.getD d) (List.getLast?_append_of_ne_nil x hy)

theorem interJoin_getLastD {α : Type} (sep : α) :
    ∀ (gs : List (List α)) (g : List α) (d : α), g ≠ [] →
      (interJoin sep (gs ++ [g])).getLastD d = g.getLastD d := by
  intro gs
  induction gs with
  | nil => intro g d hg; rfl
  | cons h2 t ih =>
    intro g d hg
    rw [List.cons_append, interJoin_cons_ne sep h2 (t ++ [g]) (by simp),
      getLastD_append_right h2 (sep :: interJoin sep (t ++ [g])) d (by simp),
      List.getLastD_cons, ih g sep hg]
    exact getLastD_irrel g hg sep d

theorem interJoin_mem {α : Type} (sep : α) :
    ∀ (gs : List (List α)) (x : α), x ∈ interJoin sep gs →
      x = sep ∨ ∃ g ∈ gs, x ∈ g := by
  intro gs
  induction gs with
  | nil => intro x hx; cases hx
  | cons g t ih =>
    intro x hx
    cases t with
    | nil => exact Or.inr ⟨g, by simp, hx⟩
    | cons g2 t2 =>
      have hx2 : x ∈ g ++ sep :: interJoin sep (g2 :: t2) := hx
      rcases List.mem_append.mp hx2 with h1 | h2
      · exact Or.inr ⟨g, by simp, h1⟩
      · rcases List.mem_cons.mp h2 with rfl | h3
        · exact Or.inl rfl
        · rcases ih x h3 with h | ⟨g3, hg3, hx3⟩
          · exact Or.inl h
          · exact Or.inr ⟨g3, List.mem_cons_of_mem g hg3, hx3⟩

theorem dropTrailWs_append_nl (s : Str) (hne : s ≠ [])
    (hl : isWs (s.getLastD 'x') = false) :
    dropTrailWs (s ++ ['\n']) = s := by
  unfold dropTrailWs
  rw [List.reverse_append]
  simp only [List.reverse_singleton, List.singleton_append]
  rw [List.dropWhile_cons, if_pos (show isWs '\n' = true from by decide)]
  cases hr : s.reverse with
  | nil => exact absurd (by rw [← List.reverse_reverse s, hr]; rfl) hne
  | cons c r =>
    have hs : s = r.reverse ++ [c] := by
      rw [← List.reverse_reverse s, hr]
      simp
    have hc : isWs c = false := by
      rw [hs, List.getLastD_concat] at hl
      exact hl
    rw [List.dropWhile_cons, hc]
    simp only [Bool.false_eq_true, if_false]
    rw [← hr, List.reverse_reverse]

theorem pyStrip_append_nl (a : Char) (t : Str) (ha : isWs a = false)
    (hl : isWs ((a :: t).getLastD 'x') = false) :
    pyStrip ((a :: t) ++ ['\n']) = a :: t := by
  unfold pyStrip
  rw [List.cons_append, List.dropWhile_cons, ha]
  simp only [Bool.false_eq_true, if_false]
  rw [← List.cons_append]
  exact dropTrailWs_append_nl (a :: t) (by simp) hl

theorem pyStrip_eq_self (a : Char) (t : Str) (ha : isWs a = false)
    (hl : isWs ((a :: t).getLastD 'x') = false) :
    pyStrip (a :: t) = a :: t := by
  rcases List.eq_nil_or_concat t with rfl | ⟨y, b, hyb⟩
  on_goal 2 => rw [List.concat_eq_append] at hyb; subst hyb
  · refine pyStrip_all_false [a] ?_
    intro c hc
    rcases List.mem_singleton.mp hc with rfl
    exact ha
  · refine pyStrip_eq_self_of_ends a y b ha ?_
    rw [List.getLastD_cons, List.getLastD_concat] at hl
    exact hl

theorem filterMap_eq_map_of_some {α β : Type} (f : α → Option β)
    (g : α → β) :
    ∀ l : List α, (∀ e ∈ l, f e = some (g e)) → l.filterMap f = l.map g := by
  intro l
  induction l with
  | nil => intro _; rfl
  | cons a t ih =>
    intro h
    rw [List.filterMap_cons, h a (by simp),
      ih fun e he => h e (List.mem_cons_of_mem a he), List.map_cons]

theorem parseBlock_cueLines (e : SubtitleEntry) (h0 : 0 ≤ e.start_time)
    (h1 : e.start_time < 360000) (h2 : 0 ≤ e.end_time)
    (h3 : e.end_time < 360000) (hte : e.text ≠ [])
    (htnl : '\n' ∉ e.text) (htws : isWs (e.text.getLastD 'x') = false) :
    parseBlock (interJoin '\n' (cueLines e)) = some (msTrunc e) := by
  have hlines : ∀ l ∈ cueLines e, '\n' ∉ l := by
    intro l hl
    unfold cueLines at hl
    rcases List.mem_cons.mp hl with rfl | hl2
    · exact intStr_noNl e.index
    · rcases List.mem_cons.mp hl2 with rfl | hl3
      · exact timeLine_noNl _ _
      · rcases List.mem_cons.mp hl3 with rfl | hl4
        · exact htnl
        · exact absurd hl4 (List.not_mem_nil l)
  obtain ⟨c, crest, hc, hw⟩ := intStr_head e.index
  have hB : interJoin '\n' (cueLines e) =
      c :: (crest ++ '\n' ::
        ((format_timestamp e.start_time ++ [' ', '-', '-', '>', ' '] ++
          format_timestamp e.end_time) ++ '\n' :: e.text)) := by
    show intStr e.index ++ '\n' ::
      ((format_timestamp e.start_time ++ [' ', '-', '-', '>', ' '] ++
        format_timestamp e.end_time) ++ '\n' :: e.text) = _
    rw [hc]
    rfl
  have hlastc : isWs ((interJoin '\n' (cueLines e)).getLastD 'x') = false := by
    rw [hB, List.getLastD_cons,
      getLastD_append_right crest _ c (by simp), List.getLastD_cons,
      getLastD_append_right _ ('\n' :: e.text) '\n' (by simp),
      List.getLastD_cons, getLastD_irrel e.text hte '\n' 'x']
    exact htws
  have hstrip : pyStrip (interJoin '\n' (cueLines e)) =
      interJoin '\n' (cueLines e) := by
    rw [hB]
    refine pyStrip_eq_self c _ hw ?_
    rw [← hB]
    exact hlastc
  have hsplit : splitLines (pyStrip (interJoin '\n' (cueLines e))) =
      cueLines e := by
    rw [hstrip]
    exact splitLines_interJoin (cueLines e) (by simp [cueLines]) hlines
  unfold parseBlock
  rw [hsplit]
  show (do
    let idx ← pyParseInt (intStr e.index)
    let (st, en) ← parse_time_line
      (format_timestamp e.start_time ++ [' ', '-', '-', '>', ' '] ++
        format_timestamp e.end_time)
    some { index := idx, start_time := st, end_time := en,
           text := interJoin '\n' [e.text] }) = some (msTrunc e)
  rw [pyParseInt_intStr]
  simp only [Option.bind_eq_bind, Option.some_bind]
  rw [parse_time_line_format e.start_time e.end_time h0 h1 h2 h3]
  rfl

theorem blocksOf_gen :
    ∀ subs : List SubtitleEntry, subs ≠ [] →
      (∀ e ∈ subs, ∀ l ∈ cueLines e, '\n' ∉ l ∧ isBlankLine l = false) →
      (∀ e ∈ subs, e.text ≠ [] ∧ isWs (e.text.getLastD 'x') = false) →
      blocksOf (generate_srt_content subs) =
        (subs.map cueLines).map (interJoin '\n') := by
  intro subs hne hgood htxt
  have hlinesL : ∀ x ∈ interJoin ([] : Str) (subs.map cueLines),
      '\n' ∉ x := by
    intro x hx
    rcases interJoin_mem ([] : Str) (subs.map cueLines) x hx with
      rfl | ⟨g, hg, hxg⟩
    · exact List.not_mem_nil '\n'
    · obtain ⟨e, he, rfl⟩ := List.mem_map.mp hg
      exact (hgood e he x hxg).1
  have hblocksL : ∀ g ∈ subs.map cueLines, g ≠ [] ∧
      ∀ x ∈ g, isBlankLine x = false := by
    intro g hg
    obtain ⟨e, he, rfl⟩ := List.mem_map.mp hg
    exact ⟨by simp [cueLines], fun x hx => (hgood e he x hx).2⟩
  obtain ⟨e1, srest, rfl⟩ : ∃ e1 srest, subs = e1 :: srest := by
    cases subs with
    | nil => exact absurd rfl hne
    | cons a b => exact ⟨a, b, rfl⟩
  obtain ⟨c, crest, hc, hw⟩ := intStr_head e1.index
  obtain ⟨Lt, hLt⟩ := interJoin_head_cons ([] : Str) (intStr e1.index)
    [format_timestamp e1.start_time ++ [' ', '-', '-', '>', ' '] ++
      format_timestamp e1.end_time, e1.text] (srest.map cueLines)
  have hLform : interJoin ([] : Str) ((e1 :: srest).map cueLines) =
      intStr e1.index :: Lt := hLt
  rcases List.eq_nil_or_concat (e1 :: srest) with h0 | ⟨init, eN, hcat⟩
  · exact absurd h0 (by simp)
  rw [List.concat_eq_append] at hcat
  have hEN : eN ∈ e1 :: srest := by rw [hcat]; simp
  obtain ⟨hENtne, hENtws⟩ := htxt eN hEN
  have hLlast : ∀ d : Str,
      (interJoin ([] : Str) ((e1 :: srest).map cueLines)).getLastD d =
        eN.text := by
    intro d
    rw [hcat]
    simp only [List.map_append, List.map_cons, List.map_nil]
    rw [interJoin_getLastD ([] : Str) (init.map cueLines) (cueLines eN) d
      (by simp [cueLines])]
    rfl
  obtain ⟨L2, hL2⟩ :
      ∃ L2, interJoin ([] : Str) ((e1 :: srest).map cueLines) =
        L2 ++ [eN.text] := by
    rcases List.eq_nil_or_concat
        (interJoin ([] : Str) ((e1 :: srest).map cueLines)) with
      h0 | ⟨a, b, h⟩
    · rw [hLform] at h0
      cases h0
    · rw [List.concat_eq_append] at h
      have hb : b = eN.text := by
        have h2 := hLlast b
        rw [h, List.getLastD_concat] at h2
        exact h2
      exact ⟨a, by rw [h, hb]⟩
  obtain ⟨Jt, hJt⟩ := interJoin_head_cons '\n' c crest Lt
  have hJform : interJoin '\n'
      (interJoin ([] : Str) ((e1 :: srest).map cueLines)) = c :: Jt := by
    rw [hLform, hc]
    exact hJt
  have hJlast : isWs ((interJoin '\n'
      (interJoin ([] : Str) ((e1 :: srest).map cueLines))).getLastD 'x') =
        false := by
    rw [hL2, interJoin_getLastD '\n' L2 eN.text 'x' hENtne]
    exact hENtws
  have hcontent : generate_srt_content (e1 :: srest) =
      interJoin '\n' (interJoin ([] : Str) ((e1 :: srest).map cueLines)) ++
        ['\n'] := gen_eq (e1 :: srest) (by simp)
  have hstrip : pyStrip (generate_srt_content (e1 :: srest)) =
      interJoin '\n' (interJoin ([] : Str) ((e1 :: srest).map cueLines)) := by
    rw [hcontent, hJform]
    refine pyStrip_append_nl c Jt hw ?_
    rw [← hJform]
    exact hJlast
  have hLne2 : interJoin ([] : Str) ((e1 :: srest).map cueLines) ≠ [] := by
    rw [hLform]
    simp
  have hsplit : splitLines (pyStrip (generate_srt_content (e1 :: srest))) =
      interJoin ([] : Str) ((e1 :: srest).map cueLines) := by
    rw [hstrip]
    exact splitLines_interJoin _ hLne2 hlinesL
  unfold blocksOf
  rw [hsplit, chunksBy_interJoin isBlankLine ([] : Str) rfl
    ((e1 :: srest).map cueLines) hblocksL]

/-- C3, counterexample: the cue list `cuesBad` satisfies the claimed
data-model invariants (indices 1..N, `0 ≤ start < end`, non-empty
single-line text), yet parsing its serialization does not return the
original cues even up to millisecond rounding: the first text `"a "`
ends in a space that `strip()` removes, and the second cue's 100-hour
start time is formatted with a three-digit hour field that the parse
pattern `\d{2}:\d{2}:\d{2},\d{3}` rejects, so the whole second cue is
dropped. -/
theorem C3_counterexample :
    claimedInvariants cuesBad = true ∧
      parse_srt (generate_srt_content cuesBad) ≠ cuesBad.map msTrunc := by
  constructor
  · with_unfolding_all decide
  · with_unfolding_all decide

/-- C3 (amended): for every non-empty cue list satisfying the claimed
data-model invariants and, additionally, with every time below 100 hours
and no text ending in whitespace, parsing the serialized SRT content
returns exactly the original cues with each time floored to whole
milliseconds. -/
theorem C3_amended (subs : List SubtitleEntry) (hne : subs ≠ [])
    (hinv : claimedInvariants subs = true)
    (hsafe : roundTripSafe subs = true) :
    parse_srt (generate_srt_content subs) = subs.map msTrunc := by
  have hmem := cueInvariantsFrom_mem subs 1 hinv
  have hsafem := roundTripSafe_mem subs hsafe
  have hgood : ∀ e ∈ subs, ∀ l ∈ cueLines e,
      '\n' ∉ l ∧ isBlankLine l = false := by
    intro e he
    obtain ⟨h0, hlt, hte, htnl⟩ := hmem e he
    exact cueLines_lines_ok e h0 hte htnl (hsafem e he).2.2
  have htxt : ∀ e ∈ subs, e.text ≠ [] ∧
      isWs (e.text.getLastD 'x') = false := by
    intro e he
    exact ⟨(hmem e he).2.2.1, (hsafem e he).2.2⟩
  unfold parse_srt
  rw [blocksOf_gen subs hne hgood htxt, List.map_map, List.filterMap_map]
  refine filterMap_eq_map_of_some _ msTrunc subs ?_
  intro e he
  obtain ⟨h0, hlt, hte, htnl⟩ := hmem e he
  obtain ⟨hs1, hs2, hws⟩ := hsafem e he
  exact parseBlock_cueLines e h0 hs1 (le_trans h0 (le_of_lt hlt)) hs2
    hte htnl hws

/-- Witness for the amended C3: the two-cue list `cuesGood` satisfies the
invariants and the extra safety conditions, and its serialization parses
back to exactly `cuesGood.map msTrunc`. -/
theorem C3_amended_witness :
    (cuesGood ≠ [] ∧ claimedInvariants cuesGood = true ∧
      roundTripSafe cuesGood = true) ∧
    parse_srt (generate_srt_content cuesGood) = cuesGood.map msTrunc := by
  have h1 : cuesGood ≠ [] := by simp [cuesGood]
  have h2 : claimedInvariants cuesGood = true := by with_unfolding_all decide
  have h3 : roundTripSafe cuesGood = true := by with_unfolding_all decide
  exact ⟨⟨h1, h2, h3⟩, C3_amended cuesGood h1 h2 h3⟩

/-! ## Well-formed blocks and the parser -/

theorem matchDigits_readFixedNatAux :
    ∀ (k : ℕ) (s : Str) (acc : ℕ),
      matchDigits k s = (readFixedNatAux acc k s).map (fun p => p.2) := by
  intro k
  induction k with
  | zero => intro s acc; rfl
  | succ k ih =>
    intro s acc
    cases s with
    | nil => rfl
    | cons c t =>
      show (if c.isDigit then matchDigits k t else none) = _
      by_cases hd : c.isDigit = true
      · rw [if_pos hd]
        show _ = (if c.isDigit then
            readFixedNatAux (acc * 10 + digitVal c) k t
          else none).map (fun p => p.2)
        rw [if_pos hd]
        exact ih t _
      · rw [if_neg hd]
        show _ = (if c.isDigit then
            readFixedNatAux (acc * 10 + digitVal c) k t
          else none).map (fun p => p.2)
        rw [if_neg hd]
        rfl

theorem timePatternB_eq_isSome (l : Str) :
    timePatternB l = (parse_time_line l).isSome := by
  unfold timePatternB parse_time_line readStamp readFixedNat
  rw [matchDigits_readFixedNatAux 2 l 0]
  cases readFixedNatAux 0 2 l with
  | none => rfl
  | some p1 =>
  obtain ⟨n1, s1⟩ := p1
  simp only [Option.map_some', Option.bind_eq_bind, Option.some_bind]
  cases expectChar ':' s1 with
  | none => rfl
  | some s2 =>
  simp only [Option.some_bind]
  rw [matchDigits_readFixedNatAux 2 s2 0]
  cases readFixedNatAux 0 2 s2 with
  | none => rfl
  | some p2 =>
  obtain ⟨n2, s3⟩ := p2
  simp only [Option.map_some', Option.some_bind]
  cases expectChar ':' s3 with
  | none => rfl
  | some s4 =>
  simp only [Option.some_bind]
  rw [matchDigits_readFixedNatAux 2 s4 0]
  cases readFixedNatAux 0 2 s4 with
  | none => rfl
  | some p3 =>
  obtain ⟨n3, s5⟩ := p3
  simp only [Option.map_some', Option.some_bind]
  cases expectChar ',' s5 with
  | none => rfl
  | some s6 =>
  simp only [Option.some_bind]
  rw [matchDigits_readFixedNatAux 3 s6 0]
  cases readFixedNatAux 0 3 s6 with
  | none => rfl
  | some p4 =>
  obtain ⟨n4, s7⟩ := p4
  simp only [Option.map_some', Option.some_bind]
  cases expectChar '-' (s7.dropWhile isWs) with
  | none => rfl
  | some s8 =>
  simp only [Option.some_bind]
  cases expectChar '-' s8 with
  | none => rfl
  | some s9 =>
  simp only [Option.some_bind]
  cases expectChar '>' s9 with
  | none => rfl
  | some s10 =>
  simp only [Option.some_bind]
  rw [matchDigits_readFixedNatAux 2 (s10.dropWhile isWs) 0]
  cases readFixedNatAux 0 2 (s10.dropWhile isWs) with
  | none => rfl
  | some p5 =>
  obtain ⟨n5, s11⟩ := p5
  simp only [Option.map_some', Option.some_bind]
  cases expectChar ':' s11 with
  | none => rfl
  | some s12 =>
  simp only [Option.some_bind]
  rw [matchDigits_readFixedNatAux 2 s12 0]
  cases readFixedNatAux 0 2 s12 with
  | none => rfl
  | some p6 =>
  obtain ⟨n6, s13⟩ := p6
  simp only [Option.map_some', Option.some_bind]
  cases expectChar ':' s13 with
  | none => rfl
  | some s14 =>
  simp only [Option.some_bind]
  rw [matchDigits_readFixedNatAux 2 s14 0]
  cases readFixedNatAux 0 2 s14 with
  | none => rfl
  | some p7 =>
  obtain ⟨n7, s15⟩ := p7
  simp only [Option.map_some', Option.some_bind]
  cases expectChar ',' s15 with
  | none => rfl
  | some s16 =>
  simp only [Option.some_bind]
  rw [matchDigits_readFixedNatAux 3 s16 0]
  cases readFixedNatAux 0 3 s16 with
  | none => rfl
  | some p8 =>
  obtain ⟨n8, s17⟩ := p8
  simp only [Option.map_some', Option.some_bind]
  rfl

/-- C9: `parse_srt` is total (it returns the per-block `filterMap`, never
aborting the rest of the file), a block contributes an entry exactly when
it is well-formed in the sense of the spec (at least 3 lines, an integer
index line, a timestamp line matching the
`HH:MM:SS,mmm --> HH:MM:SS,mmm` pattern), and on the Scenario C file —
one 2-line block between two valid blocks — it returns exactly the cues
of the two valid blocks, in file order. -/
theorem C9_malformed_blocks :
    (∀ content : Str,
       parse_srt content = (blocksOf content).filterMap parseBlock) ∧
    (∀ b : Str, (parseBlock b).isSome = wellFormedBlock b) ∧
    parse_srt contentC9 = parsedC9 := by
  refine ⟨fun content => rfl, ?_, by with_unfolding_all decide⟩
  intro b
  unfold parseBlock wellFormedBlock
  cases hsp : splitLines (pyStrip b) with
  | nil => rfl
  | cons l0 t0 =>
  cases t0 with
  | nil => rfl
  | cons l1 t1 =>
  cases t1 with
  | nil => rfl
  | cons l2 rest =>
  simp only [List.headD_cons, List.getD_cons_succ, List.getD_cons_zero,
    List.length_cons, Bool.true_and]
  rw [show decide (3 ≤ rest.length + 1 + 1 + 1) = true from by
    simp]
  simp only [Bool.true_and]
  cases pyParseInt l0 with
  | none => rfl
  | some idx =>
  simp only [Option.bind_eq_bind, Option.some_bind, Option.isSome_some,
    Bool.true_and]
  rw [timePatternB_eq_isSome l1]
  cases parse_time_line l1 with
  | none => rfl
  | some p =>
  obtain ⟨st, en⟩ := p
  rfl
